import Mathlib

/-!
# libFM: `util.h` and `fm_learn.h`

A shallow embedding of the utility routines of `src/util/util.h`
(`tokenize`, `ordered_sequence`, `argsort`) and of the generic learner of
`src/libfm/src/fm_learn.h` (`init`, `evaluate`, `feature_selection_2dim`),
followed by the properties proved about them.

Conventions of the embedding.

* C++ `int` values that are array positions, loop counters or sizes are natural
  numbers.  Where the code computes with them beyond a step of one, the
  result is wrapped to 32 bits (`wrapInt`): this is the size of the score
  buffer of `feature_selection_2dim`.
* A C++ array (`T*`) is a list; a read `a[i]` is `a.getD i 0` and a write
  `a[i] = x` is `a.set i x`.
* The key type `T` of `argsort` is any ring with a linear order; the product
  `asc * key` is the product of that ring, so it is exact for an ordered ring
  and wraps for `uint` (the numbers modulo `2 ^ 32`).
* A `double` is a number of an arbitrary linearly ordered field, with exact
  arithmetic and no rounding; where the code divides by a row count, the
  result is a `Double`, which also has the infinities and NaN.
* A `for` loop over a fixed range is a fold over that range.  Every other loop
  carries a fuel argument.  The two inner scans of `argsort` get the exact
  distance `v + 1 - u`, so they stop by their own test (`scanUp_spec`,
  `scanDown_spec`); the remaining loops report a run that uses up its fuel as
  such (`none`, `outOfFuel`) and never as a result, and the theorems show that
  the fuel handed to them is enough.
* A null pointer is `none`; a failed `assert` or a null dereference ends the
  call as `aborted`.
* A `std::string` is the list of its characters; `size_type` values are natural
  numbers below `2 ^ 64`, with `npos = 2 ^ 64 - 1` and subtraction modulo
  `2 ^ 64`.
-/

namespace LibFM

/-! ## `util.h` -/

/-- The macro `#define ASC 1`. -/
def ASC : Int := 1

/-- The macro `#define DESC -1`. -/
def DESC : Int := -1

/-- The type `uint` of `typedef unsigned int uint;`: the numbers modulo `2 ^ 32`,
with sum and product taken modulo `2 ^ 32` and the order of the values. -/
abbrev uint : Type := Fin (2 ^ 32)

/-- The value of an `int` computation whose exact result is `x`: the 32-bit
two's complement number congruent to `x`. -/
def wrapInt (x : Int) : Int := (x + 2 ^ 31) % 2 ^ 32 - 2 ^ 31

/-- The function `template <class T> T* ordered_sequence(T size, T *idx = NULL, T start_from = 0)`.
The buffer `idx` is `none` for `NULL`, in which case `new T[size]` supplies a
fresh buffer of `size` cells; the `for` loop then stores `i + start_from` in
cell `i` for `i = 0, ..., size - 1`. -/
def ordered_sequence {T : Type} [AddMonoidWithOne T] (size : Nat)
    (idx : Option (List T)) (start_from : T) : List T :=
  let buf : List T :=
    match idx with
    | none => List.replicate size 0
    | some b => b
  (List.range size).foldl (fun b i => b.set i ((i : T) + start_from)) buf

/-- What a call of `argsort` does: it returns the index array, or it leaves the
program through `exit(EXIT_FAILURE)` after writing a line to `std::cerr`.
`outOfFuel` is the embedding's report that a loop was cut short. -/
inductive ArgsortResult where
  | returned (idx : List Nat)
  | exitFailure (cerr : String)
  | outOfFuel
  deriving DecidableEq

section Argsort

variable {α : Type} [LinearOrder α] [Ring α]

/-- The sort key at position `i` of the index array: `asc*arr[idx[i]]`.  The
product is formed in the key type `T`, to which `asc` is converted: it is exact
where `T` is an ordered ring, and it wraps where `T` is `uint`. -/
def sortKey (arr : List α) (asc : Int) (idx : List Nat) (i : Nat) : α :=
  (asc : α) * arr.getD (idx.getD i 0) 0

/-- The exchange `tmp = idx[a]; idx[a] = idx[b]; idx[b] = tmp;`. -/
def swapIdx (idx : List Nat) (a b : Nat) : List Nat :=
  let tmp := idx.getD a 0
  let idx := idx.set a (idx.getD b 0)
  idx.set b tmp

/-- The scan `while (u <= v && asc*arr[idx[u]] <= asc*arr[idx[from]]) u++;`
returns the final `u`.  The first argument bounds the number of increments and
is `v + 1 - u` at the call. -/
def scanUp (arr : List α) (asc : Int) (idx : List Nat) (from_ v : Nat) : Nat → Nat → Nat
  | 0, u => u
  | fuel + 1, u =>
    if u ≤ v ∧ sortKey arr asc idx u ≤ sortKey arr asc idx from_ then
      scanUp arr asc idx from_ v fuel (u + 1)
    else u

/-- The scan `while (u <= v && asc*arr[idx[v]] >= asc*arr[idx[from]]) v--;`
returns the final `v`.  The first argument bounds the number of decrements and
is `v + 1 - u` at the call. -/
def scanDown (arr : List α) (asc : Int) (idx : List Nat) (from_ u : Nat) : Nat → Nat → Nat
  | 0, v => v
  | fuel + 1, v =>
    if u ≤ v ∧ sortKey arr asc idx v ≥ sortKey arr asc idx from_ then
      scanDown arr asc idx from_ u fuel (v - 1)
    else v

/-- The partition loop `while (u <= v) { ... }` of lines 136-143, returning the
final `(idx, u, v)`, or `none` when the fuel is used up before `u > v`. -/
def partitionLoop (arr : List α) (asc : Int) (from_ : Nat) :
    Nat → List Nat → Nat → Nat → Option (List Nat × Nat × Nat)
  | 0, idx, u, v => if u ≤ v then none else some (idx, u, v)
  | fuel + 1, idx, u, v =>
    if u ≤ v then
      let u := scanUp arr asc idx from_ v (v + 1 - u) u
      let v := scanDown arr asc idx from_ u (v + 1 - u) v
      let idx := if u ≤ v then swapIdx idx u v else idx
      partitionLoop arr asc from_ fuel idx u v
    else some (idx, u, v)

/-- The state of the main loop: the index array and the explicit stack
`m_stack[0 .. st_head)`, held as the list of pending `(from, to)` ranges with
the top of the stack first (so `st_head` is twice the length of the list). -/
structure SortState where
  idx : List Nat
  m_stack : List (Nat × Nat)
  deriving DecidableEq

/-- The `st_head` of a state: two `int` slots per pending range. -/
def SortState.st_head (s : SortState) : Nat := 2 * s.m_stack.length

/-- One pass through the body of `while (st_head != 0)` (lines 129-151) for the
popped range `[from, to)` and the rest of the stack.  `none` reports that the
partition loop ran out of fuel. -/
def argsortBody (arr : List α) (asc : Int) (idx : List Nat) (from_ to_ : Nat)
    (rest : List (Nat × Nat)) : Option SortState :=
  if to_ - from_ ≤ 1 then some ⟨idx, rest⟩
  else
    match partitionLoop arr asc from_ (to_ - from_) idx (from_ + 1) (to_ - 1) with
    | none => none
    | some (idx, u, v) =>
      let idx := swapIdx idx from_ v
      some ⟨idx, (u, to_) :: (from_, v) :: rest⟩

/-- The main loop `while (st_head != 0) { ... }`: `some idx` when the stack
empties, `none` when the fuel is used up first. -/
def argsortLoop (arr : List α) (asc : Int) : Nat → SortState → Option (List Nat)
  | 0, s =>
    match s.m_stack with
    | [] => some s.idx
    | _ :: _ => none
  | fuel + 1, s =>
    match s.m_stack with
    | [] => some s.idx
    | (from_, to_) :: rest =>
      match argsortBody arr asc s.idx from_ to_ rest with
      | none => none
      | some s => argsortLoop arr asc fuel s

/-- The function `template <class T> int* argsort(T *arr, int size, int asc = ASC)`:
the stack and the identity sequence are allocated, the direction is checked,
a `size` of at most one returns at once, and otherwise the ranges are
partitioned until the stack is empty. -/
def argsort (arr : List α) (size : Nat) (asc : Int) : ArgsortResult :=
  let idx := ordered_sequence size (none : Option (List Nat)) 0
  if asc ≠ 1 ∧ asc ≠ -1 then
    ArgsortResult.exitFailure
      "The third arguments must be +1 or -1. +1 means ascent, -1 means descent."
  else if size ≤ 1 then ArgsortResult.returned idx
  else
    match argsortLoop arr asc (2 * size + 1) ⟨idx, [(0, size)]⟩ with
    | none => ArgsortResult.outOfFuel
    | some idx => ArgsortResult.returned idx

end Argsort

/-! ### `tokenize`

A `std::string` is the list of its characters and `size_type` is a natural
number below `2 ^ 64`; the finders and `substr` follow the C++ standard. -/

/-- The constant `std::string::npos`, the largest value of `size_type`. -/
def npos : Nat := 2 ^ 64 - 1

/-- The search behind both finders: the index of the first character of `cs`
that satisfies `p`, the first character of `cs` having index `i`; `npos` when
there is none. -/
def findFrom (p : Char → Bool) : List Char → Nat → Nat
  | [], _ => npos
  | c :: cs, i => if p c then i else findFrom p cs (i + 1)

/-- The library call `str.find_first_of(delimiter, pos)`: the first index at or
after `pos` whose character occurs in `delimiter`, or `npos`. -/
def find_first_of (str delimiter : List Char) (pos : Nat) : Nat :=
  if str.length ≤ pos then npos
  else findFrom (fun c => decide (c ∈ delimiter)) (str.drop pos) pos

/-- The library call `str.find_first_not_of(delimiter, pos)`: the first index at
or after `pos` whose character does not occur in `delimiter`, or `npos`. -/
def find_first_not_of (str delimiter : List Char) (pos : Nat) : Nat :=
  if str.length ≤ pos then npos
  else findFrom (fun c => !decide (c ∈ delimiter)) (str.drop pos) pos

/-- The library call `str.substr(pos, count)`: `none` stands for the exception
`std::out_of_range`, thrown when `pos` is past the end of the string; otherwise
at most `count` characters from `pos` on. -/
def substr (str : List Char) (pos count : Nat) : Option (List Char) :=
  if str.length < pos then none else some ((str.drop pos).take count)

/-- How a call of `tokenize` ends: it returns the tokens, or `substr` throws.
`outOfFuel` is the embedding's report that the loop was cut short. -/
inductive TokenizeResult where
  | returned (result : List (List Char))
  | out_of_range
  | outOfFuel
  deriving DecidableEq

/-- The loop `while (std::string::npos != pos || std::string::npos != lastPos)`
of `tokenize` (lines 61-65); the difference `pos - lastPos` is taken in
`size_type`, modulo `2 ^ 64`. -/
def tokenizeLoop (str delimiter : List Char) :
    Nat → Nat → Nat → List (List Char) → TokenizeResult
  | 0, lastPos, pos, result =>
    if npos ≠ pos ∨ npos ≠ lastPos then TokenizeResult.outOfFuel
    else TokenizeResult.returned result
  | fuel + 1, lastPos, pos, result =>
    if npos ≠ pos ∨ npos ≠ lastPos then
      match substr str lastPos ((pos + 2 ^ 64 - lastPos) % 2 ^ 64) with
      | none => TokenizeResult.out_of_range
      | some token =>
        let lastPos := find_first_not_of str delimiter pos
        let pos := find_first_of str delimiter lastPos
        tokenizeLoop str delimiter fuel lastPos pos (result ++ [token])
    else TokenizeResult.returned result

/-- The function `tokenize(str, delimiter)` (lines 56-67). -/
def tokenize (str delimiter : List Char) : TokenizeResult :=
  let lastPos := find_first_not_of str delimiter 0
  let pos := find_first_of str delimiter lastPos
  tokenizeLoop str delimiter str.length lastPos pos []

/-! ## `fm_learn.h`

`Data.h`, `fm_model.h`, `rlog.h` and the vector and matrix containers are not
among the sources; the types below stand for what `fm_learn.h` uses of them. -/

/-- Modelled from the spec: the container `DVector<T>` (its header is not among
the sources), a buffer with its size; `setSize` is modelled below. -/
structure DVector (α : Type) where
  dim : Nat
  value : List α

/-- Modelled from the spec: the container `DMatrix<T>` (its header is not among
the sources), `dim1` rows of `dim2` cells each. -/
structure DMatrix (α : Type) where
  dim1 : Nat
  dim2 : Nat
  value : List (List α)

/-- Modelled from the spec: `DVector::setSize`, missing from the sources; the
buffer is reallocated with the requested number of cells. -/
def DVector.setSize {α : Type} [Zero α] (_v : DVector α) (p_dim : Nat) : DVector α :=
  ⟨p_dim, List.replicate p_dim 0⟩

/-- Modelled from the spec: `DMatrix::setSize`, missing from the sources; the
buffer is reallocated with the requested numbers of rows and columns. -/
def DMatrix.setSize {α : Type} [Zero α] (_m : DMatrix α) (p_dim1 p_dim2 : Nat) : DMatrix α :=
  ⟨p_dim1, p_dim2, List.replicate p_dim1 (List.replicate p_dim2 0)⟩

/-- Modelled from the spec: the model `fm_model` (its header is not among the
sources), of which `fm_learn.h` reads the factor count and the latent factor
matrix `v` (rows are factors, columns are features). -/
structure fm_model (α : Type) where
  num_factor : Nat
  v : DMatrix α

/-- Modelled from the spec: `DataMetaInfo` (declared in `Data.h`, not among the
sources), of which `fm_learn.h` reads the number of relations. -/
structure DataMetaInfo where
  num_relations : Nat

/-- A value of the C++ type `double` as `fm_learn.h` can produce one: a number
of the exact field `α`, an infinity with its sign, or NaN. -/
inductive Double (α : Type) where
  | num (x : α)
  | inf (negative : Bool)
  | nan
  deriving DecidableEq

/-- The IEEE 754 quotient of the number `x` by a row count converted to
`double`: the exact quotient over a non-zero count; over the count zero it is
NaN for `x = 0` and an infinity with the sign of `x` otherwise. -/
def Double.divCount {α : Type} [LinearOrderedField α] (x : α) (n : Nat) : Double α :=
  if n = 0 then (if x = 0 then Double.nan else Double.inf (decide (x < 0)))
  else Double.num (x / (n : α))

/-- Modelled from the spec: one call received by the metrics sink `RLog`
(`rlog.h` is not among the sources).  `addField` registers a field with its
initial value, which is the quiet NaN in every call that `init` makes; `log`
records a value under a field name. -/
inductive RLogCall (α : Type) where
  | addField (field_name : String) (init_val : Double α)
  | log (field : String) (d : Double α)
  deriving DecidableEq

/-- Modelled from the spec: the metrics sink `RLog`, an append-only named-field
log, held as the sequence of calls it has received. -/
abbrev RLog (α : Type) := List (RLogCall α)

/-- Modelled from the spec: the row container behind `data.data` (declared in
`Data.h`, not among the sources): an ordered collection of rows of type `ρ`
with a cursor. -/
structure LargeSparseMatrix (ρ : Type) where
  rows : List ρ
  pos : Nat

/-- Modelled from the spec: the reported total row count. -/
def LargeSparseMatrix.getNumRows {ρ : Type} (m : LargeSparseMatrix ρ) : Nat := m.rows.length

/-- Modelled from the spec: reset the cursor to the first row. -/
def LargeSparseMatrix.begin {ρ : Type} (m : LargeSparseMatrix ρ) : LargeSparseMatrix ρ :=
  { m with pos := 0 }

/-- Modelled from the spec: the at-end test of the cursor. -/
def LargeSparseMatrix.end {ρ : Type} (m : LargeSparseMatrix ρ) : Bool :=
  decide (m.getNumRows ≤ m.pos)

/-- Modelled from the spec: advance the cursor by one row. -/
def LargeSparseMatrix.next {ρ : Type} (m : LargeSparseMatrix ρ) : LargeSparseMatrix ρ :=
  { m with pos := m.pos + 1 }

/-- Modelled from the spec: the index of the row under the cursor. -/
def LargeSparseMatrix.getRowIndex {ρ : Type} (m : LargeSparseMatrix ρ) : Nat := m.pos

/-- Modelled from the spec: the dataset `Data` (declared in `Data.h`, not among
the sources): the row container `data`, which is `none` for a null pointer,
and the target of every row. -/
structure Data (α ρ : Type) where
  data : Option (LargeSparseMatrix ρ)
  target : List α

/-- The class `fm_learn`: the accumulator buffers, the overridable hook
`predict_case`, the model and meta information, the target bounds, the task
kind and the metrics sink (`none` for `log == NULL`). -/
structure fm_learn (α ρ : Type) where
  sum : DVector α
  sum_sqr : DVector α
  pred_q_term : DMatrix α
  predict_case : Data α ρ → α
  meta : DataMetaInfo
  fm : fm_model α
  min_target : α
  max_target : α
  task : Int
  log : Option (RLog α)

/-- The constant `TASK_REGRESSION = 0`. -/
def TASK_REGRESSION : Int := 0

/-- The constant `TASK_CLASSIFICATION = 1`. -/
def TASK_CLASSIFICATION : Int := 1

/-- What `fm_learn.h` calls of the C++ runtime: `std::sqrt`, and the two
readings of `getusertime()` taken before and after an evaluation loop. -/
structure Runtime (α : Type) where
  sqrt : α → α
  usertime_before : α
  usertime_after : α

/-- The library function `std::sqrt` on a `double`: NaN for NaN, for a negative
number and for the negative infinity, the positive infinity for itself, and
`sqrt` of the runtime on a non-negative number. -/
def Runtime.sqrtDouble {α : Type} [LinearOrderedField α] (rt : Runtime α) :
    Double α → Double α
  | Double.num x => if x < 0 then Double.nan else Double.num (rt.sqrt x)
  | Double.inf false => Double.inf false
  | Double.inf true => Double.nan
  | Double.nan => Double.nan

/-- How a call ends: it returns a value, it throws a C string, or it stops at a
failed `assert` or a null dereference.  `outOfFuel` is the embedding's report
that a loop was cut short. -/
inductive Completion (β : Type) where
  | returned (x : β)
  | thrown (what : String)
  | aborted
  | outOfFuel
  deriving DecidableEq

/-- A run of `evaluate`: how it ended, the dataset and the metrics sink as the
run left them, and the row indices at which `predict_case` was invoked. -/
structure EvalRun (α ρ : Type) where
  outcome : Completion (Double α)
  data : Data α ρ
  log : Option (RLog α)
  predicted : List Nat

section Learn

variable {α ρ : Type} [LinearOrderedField α]

/-- The method `fm_learn::init` (lines 61-79). -/
def fm_learn.init (self : fm_learn α ρ) : Completion (fm_learn α ρ) :=
  let registered : Completion (Option (RLog α)) :=
    match self.log with
    | none => Completion.returned none
    | some log =>
      let chosen : Completion (RLog α) :=
        if self.task = TASK_REGRESSION then
          Completion.returned
            (log ++ [RLogCall.addField "rmse" Double.nan, RLogCall.addField "mae" Double.nan])
        else if self.task = TASK_CLASSIFICATION then
          Completion.returned (log ++ [RLogCall.addField "accuracy" Double.nan])
        else Completion.thrown "unknown task"
      match chosen with
      | Completion.returned log =>
        Completion.returned (some (log ++
          [RLogCall.addField "time_pred" Double.nan,
           RLogCall.addField "time_learn" Double.nan,
           RLogCall.addField "time_learn2" Double.nan,
           RLogCall.addField "time_learn4" Double.nan]))
      | Completion.thrown what => Completion.thrown what
      | Completion.aborted => Completion.aborted
      | Completion.outOfFuel => Completion.outOfFuel
  match registered with
  | Completion.returned log =>
    Completion.returned
      { self with
        log := log
        sum := self.sum.setSize self.fm.num_factor
        sum_sqr := self.sum_sqr.setSize self.fm.num_factor
        pred_q_term := self.pred_q_term.setSize self.fm.num_factor (self.meta.num_relations + 1) }
  | Completion.thrown what => Completion.thrown what
  | Completion.aborted => Completion.aborted
  | Completion.outOfFuel => Completion.outOfFuel

/-- Lines 157-158: `p = std::min(max_target, p); p = std::max(min_target, p);`. -/
def clampPrediction (self : fm_learn α ρ) (p : α) : α :=
  let p := min self.max_target p
  let p := max self.min_target p
  p

/-- Line 159: the row error `err = p - data.target(...)` for the prediction `p`
of `predict_case` and the target `t` of the row. -/
def rowError (self : fm_learn α ρ) (p t : α) : α :=
  clampPrediction self p - t

/-- The locals of `evaluate_regression` that the loop updates, with the trace
of the rows handed to `predict_case`. -/
structure RegressionAcc (α : Type) where
  rmse_sum_sqr : α
  mae_sum_abs : α
  predicted : List Nat

/-- The loop `for (data.data->begin(); !data.data->end(); data.data->next())`
of `evaluate_regression`, entered after `begin()`; `none` when the fuel is
used up before `end()` holds. -/
def regressionLoop (self : fm_learn α ρ) (target : List α) :
    Nat → LargeSparseMatrix ρ → RegressionAcc α → Option (LargeSparseMatrix ρ × RegressionAcc α)
  | 0, m, acc => if m.end then some (m, acc) else none
  | fuel + 1, m, acc =>
    if m.end then some (m, acc)
    else
      let p := self.predict_case ⟨some m, target⟩
      let err := rowError self p (target.getD m.getRowIndex 0)
      regressionLoop self target fuel m.next
        ⟨acc.rmse_sum_sqr + err * err, acc.mae_sum_abs + |err|,
         acc.predicted ++ [m.getRowIndex]⟩

/-- The method `fm_learn::evaluate_regression` (lines 151-172). -/
def fm_learn.evaluate_regression (rt : Runtime α) (self : fm_learn α ρ) (data : Data α ρ) :
    EvalRun α ρ :=
  match data.data with
  | none => ⟨Completion.aborted, data, self.log, []⟩
  | some m =>
    match regressionLoop self data.target m.getNumRows m.begin ⟨0, 0, []⟩ with
    | none => ⟨Completion.outOfFuel, data, self.log, []⟩
    | some (m, acc) =>
      let eval_time := rt.usertime_after - rt.usertime_before
      let rmse := rt.sqrtDouble (Double.divCount acc.rmse_sum_sqr m.getNumRows)
      let log := self.log.map (fun l => l ++
        [RLogCall.log "rmse" rmse,
         RLogCall.log "mae" (Double.divCount acc.mae_sum_abs m.getNumRows),
         RLogCall.log "time_pred" (Double.num eval_time)])
      ⟨Completion.returned rmse, { data with data := some m }, log, acc.predicted⟩

/-- The test of line 138: the prediction and the target lie on the same side,
zero counting as non-negative. -/
def signsAgree (p t : α) : Bool :=
  (decide (p ≥ 0) && decide (t ≥ 0)) || (decide (p < 0) && decide (t < 0))

/-- The loop of `evaluate_classification`, entered after `begin()`, with the
count `num_correct` and the trace of the rows handed to `predict_case`;
`none` when the fuel is used up before `end()` holds. -/
def classificationLoop (self : fm_learn α ρ) (target : List α) :
    Nat → LargeSparseMatrix ρ → Nat × List Nat → Option (LargeSparseMatrix ρ × Nat × List Nat)
  | 0, m, acc => if m.end then some (m, acc) else none
  | fuel + 1, m, (num_correct, predicted) =>
    if m.end then some (m, num_correct, predicted)
    else
      let p := self.predict_case ⟨some m, target⟩
      let num_correct :=
        if signsAgree p (target.getD m.getRowIndex 0) then num_correct + 1 else num_correct
      classificationLoop self target fuel m.next (num_correct, predicted ++ [m.getRowIndex])

/-- The method `fm_learn::evaluate_classification` (lines 133-150). -/
def fm_learn.evaluate_classification (rt : Runtime α) (self : fm_learn α ρ)
    (data : Data α ρ) : EvalRun α ρ :=
  match data.data with
  | none => ⟨Completion.aborted, data, self.log, []⟩
  | some m =>
    match classificationLoop self data.target m.getNumRows m.begin (0, []) with
    | none => ⟨Completion.outOfFuel, data, self.log, []⟩
    | some (m, num_correct, predicted) =>
      let eval_time := rt.usertime_after - rt.usertime_before
      let accuracy := Double.divCount (num_correct : α) m.getNumRows
      let log := self.log.map (fun l => l ++
        [RLogCall.log "accuracy" accuracy, RLogCall.log "time_pred" (Double.num eval_time)])
      ⟨Completion.returned accuracy, { data with data := some m }, log, predicted⟩

/-- The method `fm_learn::evaluate` (lines 81-90). -/
def fm_learn.evaluate (rt : Runtime α) (self : fm_learn α ρ) (data : Data α ρ) :
    EvalRun α ρ :=
  match data.data with
  | none => ⟨Completion.aborted, data, self.log, []⟩
  | some _ =>
    if self.task = TASK_REGRESSION then self.evaluate_regression rt data
    else if self.task = TASK_CLASSIFICATION then self.evaluate_classification rt data
    else ⟨Completion.thrown "unknown task", data, self.log, []⟩

/-- The method `fm_learn::inner_prod` (lines 92-98). -/
def inner_prod (v : List (List α)) (rows c1 c2 : Nat) : α :=
  let ret := (List.range rows).foldl
    (fun ret i => ret + (v.getD i []).getD c1 0 * (v.getD i []).getD c2 0) 0
  |ret|

/-- The locals of `feature_selection_2dim` that its loops update: the score
buffer `v_sum`, the running `counts`, and the lines written to the file, one
`(score, i, j)` per `fprintf`. -/
structure SelectionState (α : Type) where
  v_sum : List α
  counts : Nat
  fp : List (α × Nat × Nat)
  deriving DecidableEq

/-- How a call of `feature_selection_2dim` ends: it runs to its end, or
`new double[...]` is handed a negative size and throws, or a store falls
outside `v_sum`.  The last case carries the locals at that store, with the
lines written before it; what the program does after such a store is
undefined. -/
inductive SelectionResult (α : Type) where
  | finished (s : SelectionState α)
  | bad_alloc
  | out_of_bounds (s : SelectionState α)
  deriving DecidableEq

/-- The lines that a run of `feature_selection_2dim` has written to the file. -/
def SelectionResult.lines {α : Type} : SelectionResult α → List (α × Nat × Nat)
  | SelectionResult.finished s => s.fp
  | SelectionResult.bad_alloc => []
  | SelectionResult.out_of_bounds s => s.fp

/-- The body of the inner loop (lines 123-125).  The store `v_sum[counts] = ...`
is checked against the length of the buffer: a store outside it ends the run
with the locals as they are (`Except.error`).  The count stays below the
length of the buffer, hence below `2 ^ 31`, in every store that is made, so
`counts++` is exact. -/
def selectionBody (v : List (List α)) (k_dim i : Nat) (s : SelectionState α) (j : Nat) :
    Except (SelectionState α) (SelectionState α) :=
  if s.counts < s.v_sum.length then
    let v_sum := s.v_sum.set s.counts (inner_prod v k_dim i j)
    Except.ok ⟨v_sum, s.counts + 1, s.fp ++ [(v_sum.getD s.counts 0, i, j)]⟩
  else Except.error s

/-- The method `fm_learn::feature_selection_2dim` (lines 111-130).  The `int`
variables `k_dim` and `n_dim` hold the two dimensions of the factor matrix.
The size `(1+n_dim)*n_dim/2` of the buffer is computed in `int`: the sum and
the product wrap to 32 bits and the quotient truncates. -/
def fm_learn.feature_selection_2dim (self : fm_learn α ρ) : SelectionResult α :=
  let v := self.fm.v.value
  let k_dim := self.fm.v.dim1
  let n_dim := self.fm.v.dim2
  let size : Int := (wrapInt (wrapInt (1 + (n_dim : Int)) * (n_dim : Int))).tdiv 2
  if size < 0 then SelectionResult.bad_alloc
  else
    let v_sum : List α := List.replicate size.toNat 0
    match (List.range n_dim).foldlM
        (fun s i => (List.range' i (n_dim - i)).foldlM (selectionBody v k_dim i) s)
        ⟨v_sum, 0, []⟩ with
    | Except.ok s => SelectionResult.finished s
    | Except.error s => SelectionResult.out_of_bounds s

end Learn

/-! ## Proof vocabulary -/

/-- The relation `Rearr lo hi idx idx1`: the array `idx1` is `idx` with the cells of
`[lo, hi)` rearranged among themselves and every other cell untouched. -/
def Rearr (lo hi : Nat) (idx idx1 : List Nat) : Prop :=
  idx1.length = idx.length ∧ idx1.Perm idx ∧
  (∀ i, ¬ (lo ≤ i ∧ i < hi) → idx1.getD i 0 = idx.getD i 0) ∧
  (∀ i, lo ≤ i → i < hi → ∃ j, lo ≤ j ∧ j < hi ∧ idx1.getD i 0 = idx.getD j 0)

/-- The number of passes of the main loop that a stack can still cause: a
pending range of length `n` accounts for at most `2 * n + 1` of them. -/
def stackFuel (st : List (Nat × Nat)) : Nat :=
  (st.map (fun r => 2 * (r.2 - r.1) + 1)).sum

/-- The room a stack can still claim in `m_stack`: a pending range of length
`n` never leaves more than `max 1 n` ranges on the stack. -/
def stackWeight (st : List (Nat × Nat)) : Nat :=
  (st.map (fun r => max 1 (r.2 - r.1))).sum

/-- The invariant of the main loop of `argsort` on an input of `size` keys.
The pending ranges are well formed and lie from right to left on the stack;
two positions that do not share a pending range already hold keys in order. -/
structure SortInv {α : Type} [LinearOrder α] [Ring α] (arr : List α) (asc : Int)
    (size : Nat) (s : SortState) : Prop where
  perm : s.idx.Perm (List.range size)
  ranges : ∀ r ∈ s.m_stack, r.1 ≤ r.2 ∧ r.2 ≤ size
  ordered : s.m_stack.Pairwise (fun a b => b.2 ≤ a.1)
  sorted : ∀ i j, i < j → j < size →
    sortKey arr asc s.idx i ≤ sortKey arr asc s.idx j ∨
      ∃ r ∈ s.m_stack, r.1 ≤ i ∧ j < r.2
  weight : stackWeight s.m_stack ≤ size

/-- The value that `predict_case` returns while the cursor of the dataset is on
row `r`. -/
def predictionAt {α ρ : Type} (self : fm_learn α ρ) (rows : List ρ) (target : List α)
    (r : Nat) : α :=
  self.predict_case ⟨some ⟨rows, r⟩, target⟩

/-- A learner over rational numbers whose `predict_case` is a stub that answers
row `r` with the `r`-th entry of `preds`; no metrics sink is attached. -/
def stubLearner (preds : List ℚ) (min_target max_target : ℚ) (task : Int) :
    fm_learn ℚ Unit where
  sum := ⟨0, []⟩
  sum_sqr := ⟨0, []⟩
  pred_q_term := ⟨0, 0, []⟩
  predict_case := fun d =>
    match d.data with
    | some m => preds.getD m.getRowIndex 0
    | none => 0
  meta := ⟨0⟩
  fm := ⟨0, ⟨0, 0, []⟩⟩
  min_target := min_target
  max_target := max_target
  task := task
  log := none

/-- A dataset with one row per entry of `targets`, the cursor on the first
row. -/
def stubData (targets : List ℚ) : Data ℚ Unit :=
  ⟨some ⟨List.replicate targets.length (), 0⟩, targets⟩

/-- A learner over rational numbers whose model holds the factor matrix `v`
with `k` rows (factors) and `n` columns (features). -/
def factorLearner (k n : Nat) (v : List (List ℚ)) : fm_learn ℚ Unit :=
  { stubLearner [] 0 0 0 with fm := ⟨k, ⟨k, n, v⟩⟩ }

/-- The state of the main loop of `argsort` after `n` passes through its body,
counted from the state `s`; `none` when the loop ended before the `n`-th pass
or a pass was cut short. -/
def argsortPasses {α : Type} [LinearOrder α] [Ring α] (arr : List α) (asc : Int) :
    Nat → SortState → Option SortState
  | 0, s => some s
  | n + 1, s =>
    match s.m_stack with
    | [] => none
    | (from_, to_) :: rest =>
      match argsortBody arr asc s.idx from_ to_ rest with
      | none => none
      | some s => argsortPasses arr asc n s

/-- The relation `Runs d s ts`: the tokens `ts` are, from left to right, the
maximal runs of characters of `s` that are not in `d`.  The string is a
stretch of delimiters, then a non-empty token free of delimiters that ends at
the end of the string or in front of a delimiter, and so on. -/
inductive Runs (d : List Char) : List Char → List (List Char) → Prop where
  | done (g : List Char) (hg : ∀ c ∈ g, c ∈ d) : Runs d g []
  | token (g t rest : List Char) (ts : List (List Char)) (hg : ∀ c ∈ g, c ∈ d)
      (ht : t ≠ []) (hfree : ∀ c ∈ t, c ∉ d) (hstop : ∀ c ∈ rest.head?, c ∈ d)
      (hrest : Runs d rest ts) : Runs d (g ++ (t ++ rest)) (t :: ts)

/-- The learner `learner` with the metrics sink `log` attached. -/
def withSink {α ρ : Type} (learner : fm_learn α ρ) (log : RLog α) : fm_learn α ρ :=
  { learner with log := some log }

/-- The row errors `c_r - t_r` of a regression evaluation, row by row, with
`c_r = max(min_target, min(max_target, p_r))` the clamped prediction. -/
def clampedErrors {α ρ : Type} [LinearOrderedField α] (self : fm_learn α ρ)
    (m : LargeSparseMatrix ρ) (target : List α) : List α :=
  (List.range m.getNumRows).map (fun r =>
    max self.min_target (min self.max_target (predictionAt self m.rows target r))
      - target.getD r 0)

/-- The feature pairs `(i, j)` with `i <= j < n`, listed with `i` ascending and,
for each `i`, `j` ascending from `i`. -/
def pairsInOrder (n : Nat) : List (Nat × Nat) :=
  (List.range n).flatMap (fun i => (List.range' i (n - i)).map (fun j => (i, j)))

/-! ## Lemmas on the exchange of two cells -/

theorem length_swapIdx (idx : List Nat) (a b : Nat) :
    (swapIdx idx a b).length = idx.length := by
  simp [swapIdx]

theorem getD_swapIdx (idx : List Nat) {a b : Nat} (ha : a < idx.length)
    (hb : b < idx.length) (i : Nat) :
    (swapIdx idx a b).getD i 0 =
      if i = b then idx.getD a 0 else if i = a then idx.getD b 0 else idx.getD i 0 := by
  unfold swapIdx
  simp only [List.getD_eq_getElem?_getD, List.getElem?_set, List.length_set]
  by_cases h1 : i = b
  · subst h1
    simp [hb]
  · by_cases h2 : i = a
    · subst h2
      have h3 : ¬ b = i := fun h => h1 h.symm
      simp [h1, h3, ha]
    · have h3 : ¬ b = i := fun h => h1 h.symm
      have h4 : ¬ a = i := fun h => h2 h.symm
      simp [h1, h2, h3, h4]

theorem swapIdx_perm (idx : List Nat) {a b : Nat} (ha : a < idx.length)
    (hb : b < idx.length) : (swapIdx idx a b).Perm idx := by
  rw [List.perm_iff_count]
  intro x
  have hca : idx[a] = x → 0 < idx.count x := fun h =>
    List.count_pos_iff.mpr (h ▸ List.getElem_mem ha)
  have hcb : idx[b] = x → 0 < idx.count x := fun h =>
    List.count_pos_iff.mpr (h ▸ List.getElem_mem hb)
  unfold swapIdx
  simp only [List.getD_eq_getElem?_getD, List.getElem?_eq_getElem ha,
    List.getElem?_eq_getElem hb, Option.getD_some]
  rw [List.count_set _ _ _ _ (by simpa using hb), List.count_set _ _ _ _ ha]
  simp only [List.getElem_set, beq_iff_eq]
  by_cases hab : a = b
  · subst hab
    simp only [if_true]
    split_ifs <;> omega
  · simp only [hab, if_false]
    split_ifs <;> omega

theorem sortKey_congr {α : Type} [LinearOrder α] [Ring α] (arr : List α) (asc : Int)
    {idx idx1 : List Nat} {i j : Nat} (h : idx1.getD i 0 = idx.getD j 0) :
    sortKey arr asc idx1 i = sortKey arr asc idx j := by
  unfold sortKey
  rw [h]

theorem sortKey_swapIdx {α : Type} [LinearOrder α] [Ring α] (arr : List α) (asc : Int)
    (idx : List Nat) {a b : Nat} (ha : a < idx.length) (hb : b < idx.length) (i : Nat) :
    sortKey arr asc (swapIdx idx a b) i =
      if i = b then sortKey arr asc idx a
      else if i = a then sortKey arr asc idx b else sortKey arr asc idx i := by
  unfold sortKey
  rw [getD_swapIdx idx ha hb i]
  split_ifs <;> rfl

/-! ## Rearrangements inside a range -/

theorem Rearr.refl (lo hi : Nat) (idx : List Nat) : Rearr lo hi idx idx :=
  ⟨rfl, List.Perm.refl _, fun _ _ => rfl, fun i h1 h2 => ⟨i, h1, h2, rfl⟩⟩

theorem Rearr.mono {lo hi lo1 hi1 : Nat} {idx idx1 : List Nat}
    (h : Rearr lo hi idx idx1) (hlo : lo1 ≤ lo) (hhi : hi ≤ hi1) :
    Rearr lo1 hi1 idx idx1 := by
  obtain ⟨hlen, hperm, hout, hin⟩ := h
  refine ⟨hlen, hperm, fun i hi => hout i (fun hc => hi ⟨by omega, by omega⟩), ?_⟩
  intro i h1 h2
  by_cases hc : lo ≤ i ∧ i < hi
  · obtain ⟨j, hj1, hj2, hj3⟩ := hin i hc.1 hc.2
    exact ⟨j, by omega, by omega, hj3⟩
  · exact ⟨i, h1, h2, hout i hc⟩

theorem Rearr.swap {lo hi : Nat} {idx idx1 : List Nat} (h : Rearr lo hi idx idx1)
    {a b : Nat} (ha1 : lo ≤ a) (ha2 : a < hi) (hb1 : lo ≤ b) (hb2 : b < hi)
    (hhi : hi ≤ idx.length) : Rearr lo hi idx (swapIdx idx1 a b) := by
  obtain ⟨hlen, hperm, hout, hin⟩ := h
  have ha : a < idx1.length := by omega
  have hb : b < idx1.length := by omega
  refine ⟨by rw [length_swapIdx, hlen], (swapIdx_perm idx1 ha hb).trans hperm, ?_, ?_⟩
  · intro i hi
    rw [getD_swapIdx idx1 ha hb i]
    have h1 : i ≠ b := fun hc => hi (hc ▸ ⟨hb1, hb2⟩)
    have h2 : i ≠ a := fun hc => hi (hc ▸ ⟨ha1, ha2⟩)
    simp only [h1, h2, if_false]
    exact hout i hi
  · intro i h1 h2
    rw [getD_swapIdx idx1 ha hb i]
    split_ifs
    · exact hin a ha1 ha2
    · exact hin b hb1 hb2
    · exact hin i h1 h2

theorem Rearr.trans {lo hi : Nat} {idx idx1 idx2 : List Nat}
    (h1 : Rearr lo hi idx idx1) (h2 : Rearr lo hi idx1 idx2) : Rearr lo hi idx idx2 := by
  obtain ⟨hlen, hperm, hout, hin⟩ := h1
  obtain ⟨hlen2, hperm2, hout2, hin2⟩ := h2
  refine ⟨hlen2.trans hlen, hperm2.trans hperm, fun i hi => (hout2 i hi).trans (hout i hi), ?_⟩
  intro i hi1 hi2
  obtain ⟨j, hj1, hj2, hj3⟩ := hin2 i hi1 hi2
  obtain ⟨k, hk1, hk2, hk3⟩ := hin j hj1 hj2
  exact ⟨k, hk1, hk2, hj3.trans hk3⟩

/-! ## The two inner scans -/

section ScanLemmas

variable {α : Type} [LinearOrder α] [Ring α]

theorem scanUp_spec (arr : List α) (asc : Int) (idx : List Nat) (from_ v : Nat) :
    ∀ fuel u, v + 1 - u ≤ fuel → u ≤ v + 1 →
      u ≤ scanUp arr asc idx from_ v fuel u ∧
      scanUp arr asc idx from_ v fuel u ≤ v + 1 ∧
      (∀ i, u ≤ i → i < scanUp arr asc idx from_ v fuel u →
        sortKey arr asc idx i ≤ sortKey arr asc idx from_) ∧
      (scanUp arr asc idx from_ v fuel u ≤ v →
        ¬ sortKey arr asc idx (scanUp arr asc idx from_ v fuel u)
            ≤ sortKey arr asc idx from_) ∧
      (u ≤ v → sortKey arr asc idx u ≤ sortKey arr asc idx from_ →
        u + 1 ≤ scanUp arr asc idx from_ v fuel u) := by
  intro fuel
  induction fuel with
  | zero =>
    intro u hf hu
    simp only [scanUp]
    exact ⟨le_refl _, hu, fun i h1 h2 => absurd h2 (by omega), fun h => absurd h (by omega),
      fun h => absurd h (by omega)⟩
  | succ n ih =>
    intro u hf hu
    simp only [scanUp]
    by_cases hc : u ≤ v ∧ sortKey arr asc idx u ≤ sortKey arr asc idx from_
    · rw [if_pos hc]
      obtain ⟨h1, h2, h3, h4, _⟩ := ih (u + 1) (by omega) (by omega)
      refine ⟨by omega, h2, ?_, h4, fun _ _ => h1⟩
      intro i hi1 hi2
      rcases Nat.eq_or_lt_of_le hi1 with heq | hlt
      · rw [← heq]; exact hc.2
      · exact h3 i hlt hi2
    · rw [if_neg hc]
      refine ⟨le_refl _, hu, fun i h1 h2 => absurd h2 (by omega), ?_, ?_⟩
      · intro h hk
        exact hc ⟨h, hk⟩
      · intro h hk
        exact absurd ⟨h, hk⟩ hc

theorem scanDown_spec (arr : List α) (asc : Int) (idx : List Nat) (from_ u : Nat)
    (hu1 : 1 ≤ u) :
    ∀ fuel v, v + 1 - u ≤ fuel → u ≤ v + 1 →
      scanDown arr asc idx from_ u fuel v ≤ v ∧
      u ≤ scanDown arr asc idx from_ u fuel v + 1 ∧
      (∀ i, scanDown arr asc idx from_ u fuel v < i → i ≤ v →
        sortKey arr asc idx from_ ≤ sortKey arr asc idx i) ∧
      (u ≤ scanDown arr asc idx from_ u fuel v →
        ¬ sortKey arr asc idx from_
            ≤ sortKey arr asc idx (scanDown arr asc idx from_ u fuel v)) := by
  intro fuel
  induction fuel with
  | zero =>
    intro v hf hu
    simp only [scanDown]
    exact ⟨le_refl _, hu, fun i h1 h2 => absurd h2 (by omega), fun h => absurd h (by omega)⟩
  | succ n ih =>
    intro v hf hu
    simp only [scanDown, ge_iff_le]
    by_cases hc : u ≤ v ∧ sortKey arr asc idx from_ ≤ sortKey arr asc idx v
    · rw [if_pos hc]
      obtain ⟨h1, h2, h3, h4⟩ := ih (v - 1) (by omega) (by omega)
      refine ⟨by omega, h2, ?_, h4⟩
      intro i hi1 hi2
      rcases Nat.eq_or_lt_of_le hi2 with heq | hlt
      · rw [heq]; exact hc.2
      · exact h3 i hi1 (by omega)
    · rw [if_neg hc]
      refine ⟨le_refl _, hu, fun i h1 h2 => absurd h2 (by omega), ?_⟩
      intro h hk
      exact hc ⟨h, hk⟩

end ScanLemmas

/-! ## The partition loop -/

section PartitionLemmas

variable {α : Type} [LinearOrder α] [Ring α]

theorem partitionLoop_spec (arr : List α) (asc : Int) (from_ to_ : Nat) (idx0 : List Nat)
    (hto : to_ ≤ idx0.length) :
    ∀ fuel idx u v, Rearr (from_ + 1) to_ idx0 idx →
      from_ + 1 ≤ u → u ≤ v + 1 → v + 1 ≤ to_ →
      (∀ i, from_ < i → i < u → sortKey arr asc idx i ≤ sortKey arr asc idx from_) →
      (∀ i, v < i → i < to_ → sortKey arr asc idx from_ ≤ sortKey arr asc idx i) →
      (v + 2 - u ≤ fuel ∨
        (v + 1 - u ≤ fuel ∧ (u ≤ v → sortKey arr asc idx u ≤ sortKey arr asc idx from_))) →
      ∃ idx1 v1, partitionLoop arr asc from_ fuel idx u v = some (idx1, v1 + 1, v1) ∧
        Rearr (from_ + 1) to_ idx0 idx1 ∧ from_ ≤ v1 ∧ v1 < to_ ∧
        (∀ i, from_ < i → i ≤ v1 → sortKey arr asc idx1 i ≤ sortKey arr asc idx1 from_) ∧
        (∀ i, v1 < i → i < to_ → sortKey arr asc idx1 from_ ≤ sortKey arr asc idx1 i) := by
  intro fuel
  induction fuel with
  | zero =>
    intro idx u v hre hu1 hu2 hv hlow hhigh hfuel
    have huv : u = v + 1 := by omega
    subst huv
    refine ⟨idx, v, ?_, hre, by omega, by omega, ?_, hhigh⟩
    · simp [partitionLoop]
    · intro i h1 h2
      exact hlow i h1 (by omega)
  | succ n ih =>
    intro idx u v hre hu1 hu2 hv hlow hhigh hfuel
    by_cases huv : u ≤ v
    · obtain ⟨a1, a2, a3, a4, a5⟩ :=
        scanUp_spec arr asc idx from_ v (v + 1 - u) u (le_refl _) hu2
      generalize hU : scanUp arr asc idx from_ v (v + 1 - u) u = u1 at a1 a2 a3 a4 a5
      obtain ⟨b1, b2, b3, b4⟩ :=
        scanDown_spec arr asc idx from_ u1 (by omega) (v + 1 - u1) v (le_refl _) a2
      generalize hV : scanDown arr asc idx from_ u1 (v + 1 - u1) v = v1 at b1 b2 b3 b4
      have hstep : partitionLoop arr asc from_ (n + 1) idx u v =
          partitionLoop arr asc from_ n (if u1 ≤ v1 then swapIdx idx u1 v1 else idx) u1 v1 := by
        simp only [partitionLoop, if_pos huv, hU, hV]
      rw [hstep]
      have hlow1 : ∀ i, from_ < i → i < u1 →
          sortKey arr asc idx i ≤ sortKey arr asc idx from_ := by
        intro i h1 h2
        by_cases h3 : i < u
        · exact hlow i h1 h3
        · exact a3 i (by omega) h2
      have hhigh1 : ∀ i, v1 < i → i < to_ →
          sortKey arr asc idx from_ ≤ sortKey arr asc idx i := by
        intro i h1 h2
        by_cases h3 : v < i
        · exact hhigh i h3 h2
        · exact b3 i h1 (by omega)
      by_cases hc : u1 ≤ v1
      · rw [if_pos hc]
        have hlen : idx.length = idx0.length := hre.1
        have hu1l : u1 < idx.length := by omega
        have hv1l : v1 < idx.length := by omega
        have hne : u1 ≠ v1 := by
          intro he
          have h1 := a4 (by omega)
          have h2 := b4 hc
          rw [← he] at h2
          exact h1 (le_of_lt (lt_of_not_le h2))
        have hkey : ∀ i, sortKey arr asc (swapIdx idx u1 v1) i =
            if i = v1 then sortKey arr asc idx u1
            else if i = u1 then sortKey arr asc idx v1 else sortKey arr asc idx i :=
          sortKey_swapIdx arr asc idx hu1l hv1l
        have hpiv : sortKey arr asc (swapIdx idx u1 v1) from_ = sortKey arr asc idx from_ := by
          rw [hkey]
          have h1 : from_ ≠ v1 := by omega
          have h2 : from_ ≠ u1 := by omega
          simp only [h1, h2, if_false]
        apply ih (swapIdx idx u1 v1) u1 v1
          (hre.swap (by omega) (by omega) (by omega) (by omega) hto) (by omega) (by omega)
          (by omega)
        · intro i h1 h2
          rw [hpiv, hkey]
          have h3 : i ≠ v1 := by omega
          have h4 : i ≠ u1 := by omega
          simp only [h3, h4, if_false]
          exact hlow1 i h1 h2
        · intro i h1 h2
          rw [hpiv, hkey]
          have h3 : i ≠ v1 := by omega
          have h4 : i ≠ u1 := by omega
          simp only [h3, h4, if_false]
          exact hhigh1 i h1 h2
        · right
          refine ⟨?_, ?_⟩
          · rcases hfuel with hA | ⟨hB1, hB2⟩
            · omega
            · have := a5 huv (hB2 huv)
              omega
          · intro _
            rw [hpiv, hkey]
            simp only [hne, if_false, if_true]
            exact le_of_lt (lt_of_not_le (b4 hc))
      · rw [if_neg hc]
        apply ih idx u1 v1 hre (by omega) b2 (by omega) hlow1 hhigh1
        right
        exact ⟨by omega, fun h => absurd h hc⟩
    · have huv1 : u = v + 1 := by omega
      subst huv1
      refine ⟨idx, v, ?_, hre, by omega, by omega, ?_, hhigh⟩
      · simp [partitionLoop]
      · intro i h1 h2
        exact hlow i h1 (by omega)

end PartitionLemmas

/-! ## The main loop -/

section MainLoopLemmas

variable {α : Type} [LinearOrder α] [Ring α]

theorem argsortBody_inv (arr : List α) (asc : Int) (size : Nat) (idx : List Nat)
    (from_ to_ : Nat) (rest : List (Nat × Nat))
    (h : SortInv arr asc size ⟨idx, (from_, to_) :: rest⟩) :
    ∃ s1, argsortBody arr asc idx from_ to_ rest = some s1 ∧ SortInv arr asc size s1 ∧
      stackFuel s1.m_stack < stackFuel ((from_, to_) :: rest) := by
  obtain ⟨hperm, hranges, hordered, hsorted, hweight⟩ := h
  simp only at hperm hranges hordered hsorted hweight
  have hlen : idx.length = size := by simpa using hperm.length_eq
  have hft := hranges (from_, to_) (List.mem_cons_self _ _)
  simp only at hft
  obtain ⟨hrest1, hrest2⟩ := List.pairwise_cons.1 hordered
  simp only at hrest1
  simp only [stackWeight, List.map_cons, List.sum_cons] at hweight
  by_cases htriv : to_ - from_ ≤ 1
  · refine ⟨⟨idx, rest⟩, by simp [argsortBody, htriv], ⟨hperm, ?_, hrest2, ?_, ?_⟩, ?_⟩
    · intro r hr
      exact hranges r (List.mem_cons_of_mem _ hr)
    · intro i j hij hj
      rcases hsorted i j hij hj with hk | ⟨r, hr, hr1, hr2⟩
      · exact Or.inl hk
      · rcases List.mem_cons.1 hr with heq | hmem
        · subst heq
          simp only at hr1 hr2
          omega
        · exact Or.inr ⟨r, hmem, hr1, hr2⟩
    · simp only [stackWeight]
      omega
    · simp only [stackFuel, List.map_cons, List.sum_cons]
      omega
  · obtain ⟨idx1, v1, hrun, hre, hv1, hv2, hlow, hhigh⟩ :=
      partitionLoop_spec arr asc from_ to_ idx (by omega) (to_ - from_) idx (from_ + 1)
        (to_ - 1) (Rearr.refl _ _ _) (le_refl _) (by omega) (by omega)
        (fun i h1 h2 => absurd h2 (by omega)) (fun i h1 h2 => absurd h2 (by omega))
        (Or.inl (by omega))
    have hre2 : Rearr from_ to_ idx (swapIdx idx1 from_ v1) :=
      (hre.mono (Nat.le_succ _) (le_refl _)).swap (le_refl _) (by omega) hv1 hv2 (by omega)
    have hlen1 : idx1.length = idx.length := hre.1
    have hkey : ∀ i, sortKey arr asc (swapIdx idx1 from_ v1) i =
        if i = v1 then sortKey arr asc idx1 from_
        else if i = from_ then sortKey arr asc idx1 v1 else sortKey arr asc idx1 i :=
      sortKey_swapIdx arr asc idx1 (by omega) (by omega)
    have hpiv : sortKey arr asc (swapIdx idx1 from_ v1) v1 = sortKey arr asc idx1 from_ := by
      rw [hkey]; simp
    have hleft : ∀ i, from_ ≤ i → i < v1 →
        sortKey arr asc (swapIdx idx1 from_ v1) i ≤ sortKey arr asc idx1 from_ := by
      intro i h1 h2
      rw [hkey]
      have h3 : i ≠ v1 := by omega
      simp only [h3, if_false]
      split_ifs with h4
      · exact hlow v1 (by omega) (le_refl _)
      · exact hlow i (by omega) (by omega)
    have hright : ∀ i, v1 < i → i < to_ →
        sortKey arr asc idx1 from_ ≤ sortKey arr asc (swapIdx idx1 from_ v1) i := by
      intro i h1 h2
      rw [hkey]
      have h3 : i ≠ v1 := by omega
      have h4 : i ≠ from_ := by omega
      simp only [h3, h4, if_false]
      exact hhigh i h1 h2
    refine ⟨⟨swapIdx idx1 from_ v1, (v1 + 1, to_) :: (from_, v1) :: rest⟩, ?_, ⟨?_, ?_, ?_, ?_, ?_⟩, ?_⟩
    · simp [argsortBody, htriv, hrun]
    · exact hre2.2.1.trans hperm
    · intro r hr
      simp only [List.mem_cons] at hr
      rcases hr with heq | heq | hmem
      · subst heq; simp only; omega
      · subst heq; simp only; omega
      · exact hranges r (List.mem_cons_of_mem _ hmem)
    · refine List.pairwise_cons.2 ⟨?_, List.pairwise_cons.2 ⟨?_, hrest2⟩⟩
      · intro r hr
        rcases List.mem_cons.1 hr with heq | hmem
        · subst heq; simp only; omega
        · have := hrest1 r hmem
          simp only
          omega
      · intro r hr
        exact hrest1 r hr
    · intro i j hij hj
      simp only
      by_cases hin : from_ ≤ i ∧ j < to_
      · by_cases hjv : j < v1
        · exact Or.inr ⟨(from_, v1), by simp, hin.1, hjv⟩
        · by_cases hiv : v1 < i
          · exact Or.inr ⟨(v1 + 1, to_), by simp, hiv, hin.2⟩
          · left
            have hi : sortKey arr asc (swapIdx idx1 from_ v1) i ≤ sortKey arr asc idx1 from_ := by
              rcases Nat.eq_or_lt_of_le (Nat.le_of_not_lt hiv) with heq | hlt
              · rw [heq, hpiv]
              · exact hleft i hin.1 hlt
            have hj2 : sortKey arr asc idx1 from_ ≤ sortKey arr asc (swapIdx idx1 from_ v1) j := by
              rcases Nat.eq_or_lt_of_le (Nat.le_of_not_lt hjv) with heq | hlt
              · rw [← heq, hpiv]
              · exact hright j hlt hin.2
            exact le_trans hi hj2
      · obtain ⟨_, _, hout, hinr⟩ := hre2
        have hi : ∃ i1, (swapIdx idx1 from_ v1).getD i 0 = idx.getD i1 0 ∧
            ((from_ ≤ i ∧ i < to_) → (from_ ≤ i1 ∧ i1 < to_)) ∧
            (¬ (from_ ≤ i ∧ i < to_) → i1 = i) := by
          by_cases hc : from_ ≤ i ∧ i < to_
          · obtain ⟨k, hk1, hk2, hk3⟩ := hinr i hc.1 hc.2
            exact ⟨k, hk3, fun _ => ⟨hk1, hk2⟩, fun hn => absurd hc hn⟩
          · exact ⟨i, hout i hc, fun hn => absurd hn hc, fun _ => rfl⟩
        have hj1 : ∃ j1, (swapIdx idx1 from_ v1).getD j 0 = idx.getD j1 0 ∧
            ((from_ ≤ j ∧ j < to_) → (from_ ≤ j1 ∧ j1 < to_)) ∧
            (¬ (from_ ≤ j ∧ j < to_) → j1 = j) := by
          by_cases hc : from_ ≤ j ∧ j < to_
          · obtain ⟨k, hk1, hk2, hk3⟩ := hinr j hc.1 hc.2
            exact ⟨k, hk3, fun _ => ⟨hk1, hk2⟩, fun hn => absurd hc hn⟩
          · exact ⟨j, hout j hc, fun hn => absurd hn hc, fun _ => rfl⟩
        obtain ⟨i1, hi1, hi2, hi3⟩ := hi
        obtain ⟨j1, hj1, hj2, hj3⟩ := hj1
        rw [sortKey_congr arr asc hi1, sortKey_congr arr asc hj1]
        have hlt : i1 < j1 ∧ j1 < size ∧ ¬ (from_ ≤ i1 ∧ j1 < to_) := by
          by_cases hci : from_ ≤ i ∧ i < to_
          · have := hi2 hci
            have hcj : ¬ (from_ ≤ j ∧ j < to_) := fun hc => hin ⟨hci.1, hc.2⟩
            have := hj3 hcj
            omega
          · have := hi3 hci
            by_cases hcj : from_ ≤ j ∧ j < to_
            · have := hj2 hcj
              omega
            · have := hj3 hcj
              omega
        rcases hsorted i1 j1 hlt.1 hlt.2.1 with hk | ⟨r, hr, hr1, hr2⟩
        · exact Or.inl hk
        · right
          rcases List.mem_cons.1 hr with heq | hmem
          · subst heq
            simp only at hr1 hr2
            exact absurd ⟨hr1, hr2⟩ hlt.2.2
          · have hr3 := hrest1 r hmem
            have hjo : ¬ (from_ ≤ j ∧ j < to_) := by
              intro hc
              have := hj2 hc
              omega
            have hje := hj3 hjo
            have hio : ¬ (from_ ≤ i ∧ i < to_) := by
              intro hc
              have := hi2 hc
              omega
            have hie := hi3 hio
            subst hje
            subst hie
            exact ⟨r, by simp [hmem], hr1, hr2⟩
    · simp only [stackWeight, List.map_cons, List.sum_cons]
      omega
    · simp only [stackFuel, List.map_cons, List.sum_cons]
      omega

end MainLoopLemmas

/-! ## `ordered_sequence` -/

theorem ordered_sequence_loop_length {T : Type} [AddMonoidWithOne T] (start_from : T) :
    ∀ (n : Nat) (buf : List T),
      ((List.range n).foldl (fun b i => b.set i ((i : T) + start_from)) buf).length
        = buf.length := by
  intro n
  induction n with
  | zero => intro buf; simp
  | succ k ih =>
    intro buf
    rw [List.range_succ, List.foldl_append]
    simp [ih]

theorem ordered_sequence_loop_getElem? {T : Type} [AddMonoidWithOne T] (start_from : T) :
    ∀ (n : Nat) (buf : List T) (i : Nat),
      ((List.range n).foldl (fun b i => b.set i ((i : T) + start_from)) buf)[i]?
        = if i < n ∧ i < buf.length then some ((i : T) + start_from) else buf[i]? := by
  intro n
  induction n with
  | zero => intro buf i; simp
  | succ k ih =>
    intro buf i
    rw [List.range_succ, List.foldl_append]
    simp only [List.foldl_cons, List.foldl_nil, List.getElem?_set,
      ordered_sequence_loop_length, ih]
    by_cases h1 : k = i
    · subst h1
      by_cases h2 : k < buf.length
      · simp [h2]
      · simp only [h2, if_false, and_false]
        exact (List.getElem?_eq_none (by omega)).symm
    · simp only [h1, if_false]
      by_cases h2 : i < k
      · have h3 : i < k + 1 := by omega
        simp [h2, h3]
      · have h3 : ¬ i < k + 1 := by omega
        simp [h2, h3]

theorem ordered_sequence_nat (size : Nat) :
    ordered_sequence size (none : Option (List Nat)) 0 = List.range size := by
  apply List.ext_getElem?
  intro i
  unfold ordered_sequence
  simp only []
  rw [ordered_sequence_loop_getElem?]
  by_cases h : i < size
  · simp [h, List.getElem?_range]
  · simp only [h, false_and, if_false]
    rw [List.getElem?_eq_none (by simp; omega), List.getElem?_eq_none (by simp; omega)]

/-! ## `argsort` as a whole -/

section ArgsortLemmas

variable {α : Type} [LinearOrder α] [Ring α]

theorem stackFuel_eq_zero {st : List (Nat × Nat)} (h : stackFuel st ≤ 0) : st = [] := by
  cases st with
  | nil => rfl
  | cons r rest =>
    simp only [stackFuel, List.map_cons, List.sum_cons] at h
    omega

theorem argsortLoop_spec (arr : List α) (asc : Int) (size : Nat) :
    ∀ fuel (s : SortState), SortInv arr asc size s → stackFuel s.m_stack ≤ fuel →
      ∃ idx, argsortLoop arr asc fuel s = some idx ∧ idx.Perm (List.range size) ∧
        ∀ i j, i < j → j < size → sortKey arr asc idx i ≤ sortKey arr asc idx j := by
  intro fuel
  induction fuel with
  | zero =>
    intro s hinv hfuel
    obtain ⟨idx, st⟩ := s
    have hst : st = [] := stackFuel_eq_zero hfuel
    subst hst
    refine ⟨idx, by simp [argsortLoop], hinv.perm, ?_⟩
    intro i j hij hj
    rcases hinv.sorted i j hij hj with hk | ⟨r, hr, _⟩
    · exact hk
    · simp at hr
  | succ n ih =>
    intro s hinv hfuel
    obtain ⟨idx, st⟩ := s
    cases st with
    | nil =>
      refine ⟨idx, by simp [argsortLoop], hinv.perm, ?_⟩
      intro i j hij hj
      rcases hinv.sorted i j hij hj with hk | ⟨r, hr, _⟩
      · exact hk
      · simp at hr
    | cons r rest =>
      obtain ⟨from_, to_⟩ := r
      obtain ⟨s1, hs1, hinv1, hdec⟩ := argsortBody_inv arr asc size idx from_ to_ rest hinv
      obtain ⟨res, hres, hp, hs⟩ := ih s1 hinv1 (by simp only at hfuel; omega)
      refine ⟨res, ?_, hp, hs⟩
      simp only [argsortLoop, hs1]
      exact hres

theorem sortInv_init (arr : List α) (asc : Int) (size : Nat) (h : 1 ≤ size) :
    SortInv arr asc size ⟨List.range size, [(0, size)]⟩ := by
  refine ⟨List.Perm.refl _, ?_, ?_, ?_, ?_⟩
  · intro r hr
    simp only [List.mem_singleton] at hr
    subst hr
    simp
  · simp
  · intro i j hij hj
    exact Or.inr ⟨(0, size), by simp, Nat.zero_le _, hj⟩
  · simp only [stackWeight, List.map_cons, List.map_nil, List.sum_cons, List.sum_nil]
    omega

theorem argsort_spec (arr : List α) (size : Nat) (asc : Int) (hasc : asc = 1 ∨ asc = -1) :
    ∃ idx, argsort arr size asc = ArgsortResult.returned idx ∧
      idx.Perm (List.range size) ∧
      ∀ i j, i < j → j < size → sortKey arr asc idx i ≤ sortKey arr asc idx j := by
  have hok : ¬ (asc ≠ 1 ∧ asc ≠ -1) := by
    rcases hasc with h | h <;> simp [h]
  by_cases hsmall : size ≤ 1
  · refine ⟨List.range size, ?_, List.Perm.refl _, ?_⟩
    · simp only [argsort, if_neg hok, if_pos hsmall, ordered_sequence_nat]
    · intro i j hij hj
      omega
  · obtain ⟨idx, hrun, hp, hs⟩ :=
      argsortLoop_spec arr asc size (2 * size + 1) ⟨List.range size, [(0, size)]⟩
        (sortInv_init arr asc size (by omega))
        (by simp [stackFuel])
    refine ⟨idx, ?_, hp, hs⟩
    simp only [argsort, if_neg hok, if_neg hsmall, ordered_sequence_nat, hrun]

end ArgsortLemmas

/-- The part of C2 that the code meets: where the key type is an ordered ring,
so that the product `asc * key` is exact, the index array `idx` returned by
`argsort` lists the keys in order: for every `i` with `i + 1 < size`,
`arr[idx[i]] <= arr[idx[i+1]]` when `asc = +1` and
`arr[idx[i]] >= arr[idx[i+1]]` when `asc = -1`. -/
theorem argsort_result_monotone {α : Type} [LinearOrderedRing α] (arr : List α)
    (size : Nat) (asc : Int) (_hlen : arr.length = size) (hasc : asc = 1 ∨ asc = -1) :
    ∃ idx, argsort arr size asc = ArgsortResult.returned idx ∧
      ∀ i, i + 1 < size →
        (asc = 1 → arr.getD (idx.getD i 0) 0 ≤ arr.getD (idx.getD (i + 1) 0) 0) ∧
        (asc = -1 → arr.getD (idx.getD i 0) 0 ≥ arr.getD (idx.getD (i + 1) 0) 0) := by
  obtain ⟨idx, hrun, _, hs⟩ := argsort_spec arr size asc hasc
  refine ⟨idx, hrun, ?_⟩
  intro i hi
  have hk := hs i (i + 1) (Nat.lt_succ_self i) hi
  constructor
  · intro h1
    subst h1
    simpa [sortKey] using hk
  · intro h1
    subst h1
    simpa [sortKey] using hk

theorem argsort_result_monotone_witness :
    ∃ idx, argsort [(3 : Int), 1, 2] 3 (-1) = ArgsortResult.returned idx ∧
      ∀ i, i + 1 < 3 →
        ((-1 : Int) = 1 →
          [(3 : Int), 1, 2].getD (idx.getD i 0) 0 ≤ [(3 : Int), 1, 2].getD (idx.getD (i + 1) 0) 0) ∧
        ((-1 : Int) = -1 →
          [(3 : Int), 1, 2].getD (idx.getD i 0) 0 ≥ [(3 : Int), 1, 2].getD (idx.getD (i + 1) 0) 0) :=
  argsort_result_monotone [(3 : Int), 1, 2] 3 (-1) (by decide) (by decide)

/-- C2, on the code: the claim covers every totally ordered key type, and the
code breaks it for keys of type `uint` with `asc = -1`.  The product
`asc * key` is formed in `uint`, where `-1 * 5` wraps to `4294967291` and
`-1 * 0` is `0`, so the zero key stays the smallest: on the keys `[0, 5]` the
call returns `[0, 1]`, the keys in ascending order, where the claim has
`arr[idx[0]] >= arr[idx[1]]`. -/
theorem argsort_desc_on_uint_keys :
    argsort ([0, 5] : List uint) 2 (-1) = ArgsortResult.returned [0, 1] ∧
    sortKey ([0, 5] : List uint) (-1) [0, 1] 0 = 0 ∧
    sortKey ([0, 5] : List uint) (-1) [0, 1] 1 = 4294967291 ∧
    ¬ (([0, 5] : List uint).getD (([0, 1] : List Nat).getD 0 0) 0
        ≥ ([0, 5] : List uint).getD (([0, 1] : List Nat).getD 1 0) 0) := by
  refine ⟨by decide, by decide, by decide, by decide⟩

/-! ## The evaluation loops -/

theorem regressionLoop_spec {α ρ : Type} [LinearOrderedField α] (self : fm_learn α ρ)
    (target : List α) (rows : List ρ) :
    ∀ fuel pos (acc : RegressionAcc α), pos + fuel = rows.length →
      regressionLoop self target fuel ⟨rows, pos⟩ acc =
        some (⟨rows, rows.length⟩,
          ⟨acc.rmse_sum_sqr + ((List.range' pos fuel).map (fun r =>
              rowError self (predictionAt self rows target r) (target.getD r 0) ^ 2)).sum,
           acc.mae_sum_abs + ((List.range' pos fuel).map (fun r =>
              |rowError self (predictionAt self rows target r) (target.getD r 0)|)).sum,
           acc.predicted ++ List.range' pos fuel⟩) := by
  intro fuel
  induction fuel with
  | zero =>
    intro pos acc h
    have hp : pos = rows.length := by omega
    subst hp
    simp [regressionLoop, LargeSparseMatrix.end, LargeSparseMatrix.getNumRows]
  | succ n ih =>
    intro pos acc h
    have hlt : ¬ rows.length ≤ pos := by omega
    simp only [regressionLoop, LargeSparseMatrix.end, LargeSparseMatrix.getNumRows,
      LargeSparseMatrix.next, LargeSparseMatrix.getRowIndex, hlt, decide_False,
      Bool.false_eq_true, if_false]
    rw [ih (pos + 1) _ (by omega)]
    simp only [List.range'_succ, List.map_cons, List.sum_cons, predictionAt, pow_two,
      add_assoc, List.append_assoc, List.singleton_append]

theorem signsAgree_eq {α : Type} [LinearOrderedField α] (p t : α) :
    signsAgree p t = decide ((p ≥ 0 ∧ t ≥ 0) ∨ (p < 0 ∧ t < 0)) := by
  simp only [signsAgree, Bool.decide_or, Bool.decide_and]

theorem classificationLoop_spec {α ρ : Type} [LinearOrderedField α] (self : fm_learn α ρ)
    (target : List α) (rows : List ρ) :
    ∀ fuel pos (num_correct : Nat) (predicted : List Nat), pos + fuel = rows.length →
      classificationLoop self target fuel ⟨rows, pos⟩ (num_correct, predicted) =
        some (⟨rows, rows.length⟩,
          num_correct + (List.range' pos fuel).countP (fun r =>
            signsAgree (predictionAt self rows target r) (target.getD r 0)),
          predicted ++ List.range' pos fuel) := by
  intro fuel
  induction fuel with
  | zero =>
    intro pos c tr h
    have hp : pos = rows.length := by omega
    subst hp
    simp [classificationLoop, LargeSparseMatrix.end, LargeSparseMatrix.getNumRows]
  | succ n ih =>
    intro pos c tr h
    have hlt : ¬ rows.length ≤ pos := by omega
    simp only [classificationLoop, LargeSparseMatrix.end, LargeSparseMatrix.getNumRows,
      LargeSparseMatrix.next, LargeSparseMatrix.getRowIndex, hlt, decide_False,
      Bool.false_eq_true, if_false]
    rw [ih (pos + 1) _ _ (by omega)]
    simp only [List.range'_succ, List.countP_cons, predictionAt, List.append_assoc,
      List.singleton_append]
    split_ifs <;> simp only [Option.some.injEq, Prod.mk.injEq, true_and, and_true] <;> omega

theorem Double.divCount_of_pos {α : Type} [LinearOrderedField α] (x : α) {n : Nat}
    (hn : 1 ≤ n) : Double.divCount x n = Double.num (x / (n : α)) := by
  have h : ¬ n = 0 := by omega
  simp only [Double.divCount, if_neg h]

theorem Double.divCount_zero_zero {α : Type} [LinearOrderedField α] :
    Double.divCount (0 : α) 0 = Double.nan := by
  simp only [Double.divCount, if_true]

theorem Runtime.sqrtDouble_num {α : Type} [LinearOrderedField α] (rt : Runtime α) {x : α}
    (hx : 0 ≤ x) : rt.sqrtDouble (Double.num x) = Double.num (rt.sqrt x) := by
  simp only [Runtime.sqrtDouble, if_neg (not_lt.2 hx)]

theorem sqrtDouble_divCount_squares {α β : Type} [LinearOrderedField α] (rt : Runtime α)
    (l : List β) (f : β → α) {n : Nat} (hn : 1 ≤ n) :
    rt.sqrtDouble (Double.divCount ((l.map (fun r => f r ^ 2)).sum) n)
      = Double.num (rt.sqrt ((l.map (fun r => f r ^ 2)).sum / (n : α))) := by
  rw [Double.divCount_of_pos _ hn]
  apply Runtime.sqrtDouble_num
  apply div_nonneg
  · apply List.sum_nonneg
    intro x hx
    obtain ⟨r, _, rfl⟩ := List.mem_map.1 hx
    exact sq_nonneg _
  · exact Nat.cast_nonneg n

theorem evaluate_regression_outcome {α ρ : Type} [LinearOrderedField α] (rt : Runtime α)
    (self : fm_learn α ρ) (data : Data α ρ) (m : LargeSparseMatrix ρ)
    (hdata : data.data = some m) :
    self.evaluate_regression rt data =
      ⟨Completion.returned (rt.sqrtDouble (Double.divCount
          (((List.range m.getNumRows).map (fun r =>
            rowError self (predictionAt self m.rows data.target r)
              (data.target.getD r 0) ^ 2)).sum) m.getNumRows)),
        { data with data := some ⟨m.rows, m.getNumRows⟩ },
        self.log.map (fun l => l ++
          [RLogCall.log "rmse" (rt.sqrtDouble (Double.divCount
            (((List.range m.getNumRows).map (fun r =>
              rowError self (predictionAt self m.rows data.target r)
                (data.target.getD r 0) ^ 2)).sum) m.getNumRows)),
           RLogCall.log "mae" (Double.divCount (((List.range m.getNumRows).map (fun r =>
              |rowError self (predictionAt self m.rows data.target r)
                (data.target.getD r 0)|)).sum) m.getNumRows),
           RLogCall.log "time_pred" (Double.num (rt.usertime_after - rt.usertime_before))]),
        List.range m.getNumRows⟩ := by
  obtain ⟨rows, pos⟩ := m
  simp only [fm_learn.evaluate_regression, hdata, LargeSparseMatrix.begin,
    LargeSparseMatrix.getNumRows]
  rw [regressionLoop_spec self data.target rows rows.length 0 _ (by omega)]
  simp [List.range_eq_range', LargeSparseMatrix.getNumRows]

theorem evaluate_classification_outcome {α ρ : Type} [LinearOrderedField α] (rt : Runtime α)
    (self : fm_learn α ρ) (data : Data α ρ) (m : LargeSparseMatrix ρ)
    (hdata : data.data = some m) :
    self.evaluate_classification rt data =
      ⟨Completion.returned (Double.divCount
          (((List.range m.getNumRows).countP (fun r =>
              signsAgree (predictionAt self m.rows data.target r) (data.target.getD r 0)) : Nat)
            : α) m.getNumRows),
        { data with data := some ⟨m.rows, m.getNumRows⟩ },
        self.log.map (fun l => l ++
          [RLogCall.log "accuracy" (Double.divCount
            (((List.range m.getNumRows).countP (fun r =>
                signsAgree (predictionAt self m.rows data.target r) (data.target.getD r 0)) : Nat)
              : α) m.getNumRows),
           RLogCall.log "time_pred" (Double.num (rt.usertime_after - rt.usertime_before))]),
        List.range m.getNumRows⟩ := by
  obtain ⟨rows, pos⟩ := m
  simp only [fm_learn.evaluate_classification, hdata, LargeSparseMatrix.begin,
    LargeSparseMatrix.getNumRows]
  rw [classificationLoop_spec self data.target rows rows.length 0 _ _ (by omega)]
  simp [List.range_eq_range', LargeSparseMatrix.getNumRows]

/-! ## Evaluation: the returned metrics -/

/-- C3: for a dataset with `n >= 1` rows and bounds `min_target <= max_target`,
`evaluate` with the regression task returns `sqrt((sum over all rows of
(c_r - t_r)^2) / n)` with `c_r = max(min_target, min(max_target, p_r))`; for
targets `1, 2, 3`, predictions `1, 2, 4` and bounds `[0, 5]` this is
`sqrt(1/3)`. -/
theorem evaluate_regression_returns_rmse :
    (∀ {α ρ : Type} [LinearOrderedField α] (rt : Runtime α) (self : fm_learn α ρ)
        (data : Data α ρ) (m : LargeSparseMatrix ρ),
        data.data = some m → self.task = 0 → 1 ≤ m.getNumRows →
        self.min_target ≤ self.max_target →
        (self.evaluate rt data).outcome =
          Completion.returned (Double.num (rt.sqrt (((List.range m.getNumRows).map (fun r =>
            (max self.min_target (min self.max_target (predictionAt self m.rows data.target r))
              - data.target.getD r 0) ^ 2)).sum / (m.getNumRows : α))))) ∧
    (∀ sqrt : ℚ → ℚ,
        ((stubLearner [1, 2, 4] 0 5 0).evaluate ⟨sqrt, 0, 0⟩ (stubData [1, 2, 3])).outcome =
          Completion.returned (Double.num (sqrt (1 / 3)))) := by
  constructor
  · intro α ρ _ rt self data m hdata htask hn _
    simp only [fm_learn.evaluate, hdata, htask, TASK_REGRESSION, if_true]
    rw [evaluate_regression_outcome rt self data m hdata]
    simp only [sqrtDouble_divCount_squares rt _ _ hn]
    simp only [rowError, clampPrediction]
  · intro sqrt
    simp [fm_learn.evaluate, fm_learn.evaluate_regression, stubLearner, stubData,
      regressionLoop, TASK_REGRESSION, LargeSparseMatrix.getNumRows, LargeSparseMatrix.begin,
      LargeSparseMatrix.end, LargeSparseMatrix.next, LargeSparseMatrix.getRowIndex, rowError,
      clampPrediction, Double.divCount, Runtime.sqrtDouble]
    norm_num

theorem evaluate_regression_returns_rmse_witness :
    ((stubLearner [1, 2, 4] 0 5 0).evaluate ⟨id, 0, 0⟩ (stubData [1, 2, 3])).outcome =
      Completion.returned (Double.num (id (((List.range 3).map (fun r =>
        (max (0 : ℚ) (min 5 (predictionAt (stubLearner [1, 2, 4] 0 5 0)
            (List.replicate 3 ()) [1, 2, 3] r))
          - ([1, 2, 3] : List ℚ).getD r 0) ^ 2)).sum / ((3 : Nat) : ℚ)))) :=
  evaluate_regression_returns_rmse.1 ⟨id, 0, 0⟩ (stubLearner [1, 2, 4] 0 5 0)
    (stubData [1, 2, 3]) ⟨List.replicate 3 (), 0⟩ rfl rfl (by decide) (by decide)

/-- C4: in regression evaluation the value that enters the row error lies in
`[min_target, max_target]` whenever `min_target <= max_target`; it is the
prediction itself when that is inside the interval, `max_target` when the
prediction is above it and `min_target` when it is below.  With bounds
`[0, 3]`, prediction `5` and target `3` the row error is `0`. -/
theorem regression_prediction_is_clamped :
    (∀ {α ρ : Type} [LinearOrderedField α] (self : fm_learn α ρ) (p t : α),
        self.min_target ≤ self.max_target →
        (self.min_target ≤ clampPrediction self p ∧ clampPrediction self p ≤ self.max_target) ∧
        (self.min_target ≤ p → p ≤ self.max_target → clampPrediction self p = p) ∧
        (self.max_target < p → clampPrediction self p = self.max_target) ∧
        (p < self.min_target → clampPrediction self p = self.min_target) ∧
        rowError self p t = clampPrediction self p - t) ∧
    clampPrediction (stubLearner [5] 0 3 0) 5 = 3 ∧
    rowError (stubLearner [5] 0 3 0) 5 3 = 0 ∧
    (∀ sqrt : ℚ → ℚ,
        ((stubLearner [5] 0 3 0).evaluate ⟨sqrt, 0, 0⟩ (stubData [3])).outcome =
          Completion.returned (Double.num (sqrt (0 / 1)))) := by
  refine ⟨?_, ?_, ?_, ?_⟩
  · intro α ρ _ self p t hb
    simp only [clampPrediction]
    refine ⟨⟨le_max_left _ _, max_le hb (min_le_left _ _)⟩, ?_, ?_, ?_, rfl⟩
    · intro h1 h2
      rw [min_eq_right h2, max_eq_right h1]
    · intro h1
      rw [min_eq_left (le_of_lt h1), max_eq_right hb]
    · intro h1
      rw [min_eq_right (le_trans (le_of_lt h1) hb), max_eq_left (le_of_lt h1)]
  · norm_num [clampPrediction, stubLearner]
  · norm_num [rowError, clampPrediction, stubLearner]
  · intro sqrt
    simp [fm_learn.evaluate, fm_learn.evaluate_regression, stubLearner, stubData,
      regressionLoop, TASK_REGRESSION, LargeSparseMatrix.getNumRows, LargeSparseMatrix.begin,
      LargeSparseMatrix.end, LargeSparseMatrix.next, LargeSparseMatrix.getRowIndex, rowError,
      clampPrediction, Double.divCount, Runtime.sqrtDouble]
    norm_num

theorem regression_prediction_is_clamped_witness :
    ((0 : ℚ) ≤ clampPrediction (stubLearner [5] 0 3 0) 5 ∧
      clampPrediction (stubLearner [5] 0 3 0) 5 ≤ 3) ∧
    ((0 : ℚ) ≤ 5 → (5 : ℚ) ≤ 3 → clampPrediction (stubLearner [5] 0 3 0) 5 = 5) ∧
    ((3 : ℚ) < 5 → clampPrediction (stubLearner [5] 0 3 0) 5 = 3) ∧
    ((5 : ℚ) < 0 → clampPrediction (stubLearner [5] 0 3 0) 5 = 0) ∧
    rowError (stubLearner [5] 0 3 0) 5 3 = clampPrediction (stubLearner [5] 0 3 0) 5 - 3 :=
  regression_prediction_is_clamped.1 (stubLearner [5] 0 3 0) 5 3 (by decide)

/-- C5: for a dataset with `n >= 1` rows, `evaluate` with the classification
task returns `c / n`, where `c` counts the rows whose unclamped prediction `p`
and target `t` satisfy `(p >= 0 and t >= 0) or (p < 0 and t < 0)`; for targets
`+1, -1, +1` and margins `0.5, -0.2, -0.1` this is `2/3`. -/
theorem evaluate_classification_returns_accuracy :
    (∀ {α ρ : Type} [LinearOrderedField α] (rt : Runtime α) (self : fm_learn α ρ)
        (data : Data α ρ) (m : LargeSparseMatrix ρ),
        data.data = some m → self.task = 1 → 1 ≤ m.getNumRows →
        (self.evaluate rt data).outcome =
          Completion.returned (Double.num
            (((List.range m.getNumRows).countP (fun r => decide
                ((predictionAt self m.rows data.target r ≥ 0 ∧ data.target.getD r 0 ≥ 0) ∨
                 (predictionAt self m.rows data.target r < 0 ∧ data.target.getD r 0 < 0))) : Nat)
              / (m.getNumRows : α)))) ∧
    (∀ sqrt : ℚ → ℚ,
        ((stubLearner [1 / 2, -1 / 5, -1 / 10] 0 0 1).evaluate ⟨sqrt, 0, 0⟩
            (stubData [1, -1, 1])).outcome = Completion.returned (Double.num (2 / 3))) := by
  constructor
  · intro α ρ _ rt self data m hdata htask hn
    simp only [fm_learn.evaluate, hdata, htask, TASK_REGRESSION, TASK_CLASSIFICATION,
      one_ne_zero, if_false, if_true]
    rw [evaluate_classification_outcome rt self data m hdata, Double.divCount_of_pos _ hn]
    simp only [signsAgree_eq]
  · intro sqrt
    simp [fm_learn.evaluate, fm_learn.evaluate_classification, stubLearner, stubData,
      classificationLoop, TASK_REGRESSION, TASK_CLASSIFICATION, LargeSparseMatrix.getNumRows,
      LargeSparseMatrix.begin, LargeSparseMatrix.end, LargeSparseMatrix.next,
      LargeSparseMatrix.getRowIndex, signsAgree, Double.divCount]
    norm_num

theorem evaluate_classification_returns_accuracy_witness :
    ((stubLearner [1 / 2, -1 / 5, -1 / 10] 0 0 1).evaluate ⟨id, 0, 0⟩
        (stubData [1, -1, 1])).outcome =
      Completion.returned (Double.num
        (((List.range 3).countP (fun r => decide
            ((predictionAt (stubLearner [1 / 2, -1 / 5, -1 / 10] 0 0 1)
                  (List.replicate 3 ()) [1, -1, 1] r ≥ 0 ∧
                ([1, -1, 1] : List ℚ).getD r 0 ≥ 0) ∨
             (predictionAt (stubLearner [1 / 2, -1 / 5, -1 / 10] 0 0 1)
                  (List.replicate 3 ()) [1, -1, 1] r < 0 ∧
                ([1, -1, 1] : List ℚ).getD r 0 < 0))) : Nat)
          / ((3 : Nat) : ℚ))) :=
  evaluate_classification_returns_accuracy.1 ⟨id, 0, 0⟩
    (stubLearner [1 / 2, -1 / 5, -1 / 10] 0 0 1) (stubData [1, -1, 1])
    ⟨List.replicate 3 (), 0⟩ rfl rfl (by decide)

/-! ## Evaluation: the failure paths -/

/-- C6, as stated, fails: on a dataset with zero rows `evaluate` raises no
empty-input error.  For both task kinds the run returns, and what it returns
is NaN, the quotient of the zero accumulator by the zero row count. -/
theorem evaluate_empty_dataset_returns_value :
    ((stubLearner [] 0 5 0).evaluate ⟨id, 0, 0⟩ (stubData [])).outcome =
        Completion.returned Double.nan ∧
    ((stubLearner [] 0 5 1).evaluate ⟨id, 0, 0⟩ (stubData [])).outcome =
        Completion.returned Double.nan ∧
    ¬ (∃ what, ((stubLearner [] 0 5 0).evaluate ⟨id, 0, 0⟩ (stubData [])).outcome =
        Completion.thrown what) ∧
    ¬ (∃ what, ((stubLearner [] 0 5 1).evaluate ⟨id, 0, 0⟩ (stubData [])).outcome =
        Completion.thrown what) := by
  have h0 : ((stubLearner [] 0 5 0).evaluate ⟨id, 0, 0⟩ (stubData [])).outcome =
      Completion.returned Double.nan := by
    simp [fm_learn.evaluate, fm_learn.evaluate_regression, stubLearner, stubData,
      regressionLoop, TASK_REGRESSION, LargeSparseMatrix.getNumRows, LargeSparseMatrix.begin,
      LargeSparseMatrix.end, Double.divCount, Runtime.sqrtDouble]
  have h1 : ((stubLearner [] 0 5 1).evaluate ⟨id, 0, 0⟩ (stubData [])).outcome =
      Completion.returned Double.nan := by
    simp [fm_learn.evaluate, fm_learn.evaluate_classification, stubLearner, stubData,
      classificationLoop, TASK_REGRESSION, TASK_CLASSIFICATION, LargeSparseMatrix.getNumRows,
      LargeSparseMatrix.begin, LargeSparseMatrix.end, Double.divCount]
  refine ⟨h0, h1, ?_, ?_⟩
  · rintro ⟨what, hw⟩
    rw [h0] at hw
    exact Completion.noConfusion hw
  · rintro ⟨what, hw⟩
    rw [h1] at hw
    exact Completion.noConfusion hw

/-- C6, amended: on a non-null dataset with zero rows `evaluate` does not fail
for either task kind.  No row is visited, `predict_case` is not invoked, and
the run returns NaN: the accumulator, still zero, is divided by the row count
zero (and for regression the square root of that quotient is taken).  An
attached metrics sink receives the same NaN under "rmse" and "mae", or under
"accuracy". -/
theorem evaluate_empty_dataset_returns_nan {α ρ : Type} [LinearOrderedField α]
    (rt : Runtime α) (self : fm_learn α ρ) (data : Data α ρ) (m : LargeSparseMatrix ρ)
    (hdata : data.data = some m) (hrows : m.getNumRows = 0) :
    (self.task = 0 →
      (self.evaluate rt data).outcome = Completion.returned Double.nan ∧
      (self.evaluate rt data).predicted = [] ∧
      (self.evaluate rt data).log = self.log.map (fun l => l ++
        [RLogCall.log "rmse" Double.nan, RLogCall.log "mae" Double.nan,
         RLogCall.log "time_pred" (Double.num (rt.usertime_after - rt.usertime_before))])) ∧
    (self.task = 1 →
      (self.evaluate rt data).outcome = Completion.returned Double.nan ∧
      (self.evaluate rt data).predicted = [] ∧
      (self.evaluate rt data).log = self.log.map (fun l => l ++
        [RLogCall.log "accuracy" Double.nan,
         RLogCall.log "time_pred" (Double.num (rt.usertime_after - rt.usertime_before))])) := by
  constructor
  · intro htask
    simp only [fm_learn.evaluate, hdata, htask, TASK_REGRESSION, if_true]
    rw [evaluate_regression_outcome rt self data m hdata, hrows]
    simp [Double.divCount, Runtime.sqrtDouble]
  · intro htask
    simp only [fm_learn.evaluate, hdata, htask, TASK_REGRESSION, TASK_CLASSIFICATION,
      one_ne_zero, if_false, if_true]
    rw [evaluate_classification_outcome rt self data m hdata, hrows]
    simp [Double.divCount]

theorem evaluate_empty_dataset_returns_nan_witness :
    (((stubLearner [] 0 5 0).evaluate ⟨id, 0, 0⟩ (stubData [])).outcome
        = Completion.returned Double.nan ∧
      ((stubLearner [] 0 5 0).evaluate ⟨id, 0, 0⟩ (stubData [])).predicted = [] ∧
      ((stubLearner [] 0 5 0).evaluate ⟨id, 0, 0⟩ (stubData [])).log
        = (stubLearner [] 0 5 0).log.map (fun l => l ++
          [RLogCall.log "rmse" Double.nan, RLogCall.log "mae" Double.nan,
           RLogCall.log "time_pred" (Double.num (id (0 : ℚ) - id 0))])) ∧
    (((stubLearner [] 0 5 1).evaluate ⟨id, 0, 0⟩ (stubData [])).outcome
        = Completion.returned Double.nan ∧
      ((stubLearner [] 0 5 1).evaluate ⟨id, 0, 0⟩ (stubData [])).predicted = [] ∧
      ((stubLearner [] 0 5 1).evaluate ⟨id, 0, 0⟩ (stubData [])).log
        = (stubLearner [] 0 5 1).log.map (fun l => l ++
          [RLogCall.log "accuracy" Double.nan,
           RLogCall.log "time_pred" (Double.num (id (0 : ℚ) - id 0))])) :=
  ⟨(evaluate_empty_dataset_returns_nan ⟨id, 0, 0⟩ (stubLearner [] 0 5 0) (stubData [])
      ⟨[], 0⟩ rfl rfl).1 rfl,
   (evaluate_empty_dataset_returns_nan ⟨id, 0, 0⟩ (stubLearner [] 0 5 1) (stubData [])
      ⟨[], 0⟩ rfl rfl).2 rfl⟩

/-- C8: on a non-null dataset `evaluate` throws "unknown task" if and only if
the task is neither regression (0) nor classification (1); when it throws,
`predict_case` has not been invoked, the dataset and its cursor are as they
were, and the metrics sink has received nothing. -/
theorem evaluate_unknown_task {α ρ : Type} [LinearOrderedField α] (rt : Runtime α)
    (self : fm_learn α ρ) (data : Data α ρ) (m : LargeSparseMatrix ρ)
    (hdata : data.data = some m) :
    ((∃ what, (self.evaluate rt data).outcome = Completion.thrown what) ↔
      (self.task ≠ 0 ∧ self.task ≠ 1)) ∧
    (∀ what, (self.evaluate rt data).outcome = Completion.thrown what →
      what = "unknown task" ∧ (self.evaluate rt data).predicted = [] ∧
      (self.evaluate rt data).data = data ∧ (self.evaluate rt data).log = self.log) := by
  by_cases h0 : self.task = 0
  · have hrun : self.evaluate rt data = self.evaluate_regression rt data := by
      simp only [fm_learn.evaluate, hdata, h0, TASK_REGRESSION, if_true]
    rw [hrun, evaluate_regression_outcome rt self data m hdata]
    refine ⟨⟨?_, fun h => absurd h0 h.1⟩, ?_⟩
    · rintro ⟨what, hw⟩
      exact Completion.noConfusion hw
    · intro what hw
      exact Completion.noConfusion hw
  · by_cases h1 : self.task = 1
    · have hrun : self.evaluate rt data = self.evaluate_classification rt data := by
        simp only [fm_learn.evaluate, hdata, h0, h1, TASK_REGRESSION, TASK_CLASSIFICATION,
          one_ne_zero, if_false, if_true]
      rw [hrun, evaluate_classification_outcome rt self data m hdata]
      refine ⟨⟨?_, fun h => absurd h1 h.2⟩, ?_⟩
      · rintro ⟨what, hw⟩
        exact Completion.noConfusion hw
      · intro what hw
        exact Completion.noConfusion hw
    · have hrun : self.evaluate rt data =
          ⟨Completion.thrown "unknown task", data, self.log, []⟩ := by
        simp only [fm_learn.evaluate, hdata, h0, h1, TASK_REGRESSION, TASK_CLASSIFICATION,
          if_false]
      rw [hrun]
      refine ⟨⟨fun _ => ⟨h0, h1⟩, fun _ => ⟨"unknown task", rfl⟩⟩, ?_⟩
      intro what hw
      simp only [Completion.thrown.injEq] at hw
      exact ⟨hw.symm, rfl, rfl, rfl⟩

theorem evaluate_unknown_task_witness :
    ((∃ what, ((stubLearner [1] 0 5 2).evaluate ⟨id, 0, 0⟩ (stubData [1])).outcome =
        Completion.thrown what) ↔
      ((stubLearner [1] 0 5 2).task ≠ 0 ∧ (stubLearner [1] 0 5 2).task ≠ 1)) ∧
    (∀ what, ((stubLearner [1] 0 5 2).evaluate ⟨id, 0, 0⟩ (stubData [1])).outcome =
        Completion.thrown what →
      what = "unknown task" ∧
      ((stubLearner [1] 0 5 2).evaluate ⟨id, 0, 0⟩ (stubData [1])).predicted = [] ∧
      ((stubLearner [1] 0 5 2).evaluate ⟨id, 0, 0⟩ (stubData [1])).data = stubData [1] ∧
      ((stubLearner [1] 0 5 2).evaluate ⟨id, 0, 0⟩ (stubData [1])).log =
        (stubLearner [1] 0 5 2).log) :=
  evaluate_unknown_task ⟨id, 0, 0⟩ (stubLearner [1] 0 5 2) (stubData [1])
    ⟨List.replicate 1 (), 0⟩ rfl

/-! ## `init` -/

/-- C9, as stated, fails: with no metrics sink attached, `init` on the task
value 2, which is neither regression nor classification, throws nothing and
returns the learner with its buffers sized. -/
theorem init_without_sink_accepts_unknown_task :
    (stubLearner [] 0 5 2).task ≠ 0 ∧ (stubLearner [] 0 5 2).task ≠ 1 ∧
    (∃ learner, (stubLearner [] 0 5 2).init = Completion.returned learner) ∧
    ¬ (∃ what, (stubLearner [] 0 5 2).init = Completion.thrown what) := by
  refine ⟨by decide, by decide, ⟨_, rfl⟩, ?_⟩
  rintro ⟨what, hw⟩
  exact Completion.noConfusion hw

theorem init_checks_task_only_with_sink_aux {α ρ : Type} [LinearOrderedField α]
    (self : fm_learn α ρ) :
    (self.init = Completion.thrown "unknown task" ↔
      (self.log ≠ none ∧ self.task ≠ 0 ∧ self.task ≠ 1)) ∧
    ((∃ learner, self.init = Completion.returned learner) ↔
      (self.log = none ∨ self.task = 0 ∨ self.task = 1)) := by
  cases hlog : self.log with
  | none =>
    simp [fm_learn.init, hlog]
  | some log =>
    by_cases h0 : self.task = 0
    · simp [fm_learn.init, hlog, h0, TASK_REGRESSION]
    · by_cases h1 : self.task = 1
      · simp [fm_learn.init, hlog, h1, TASK_REGRESSION, TASK_CLASSIFICATION]
      · simp [fm_learn.init, hlog, h0, h1, TASK_REGRESSION, TASK_CLASSIFICATION]

/-- C9, amended: `init` looks at the task kind only while it registers fields
with an attached metrics sink.  It throws "unknown task" if and only if a sink
is attached and the task is neither regression (0) nor classification (1);
in every other case, in particular whenever no sink is attached, it returns. -/
theorem init_checks_task_only_with_sink {α ρ : Type} [LinearOrderedField α]
    (self : fm_learn α ρ) :
    (self.init = Completion.thrown "unknown task" ↔
      (self.log ≠ none ∧ self.task ≠ 0 ∧ self.task ≠ 1)) ∧
    ((∃ learner, self.init = Completion.returned learner) ↔
      (self.log = none ∨ self.task = 0 ∨ self.task = 1)) := by
  cases hlog : self.log with
  | none =>
    simp [fm_learn.init, hlog]
  | some log =>
    by_cases h0 : self.task = 0
    · simp [fm_learn.init, hlog, h0, TASK_REGRESSION]
    · by_cases h1 : self.task = 1
      · simp [fm_learn.init, hlog, h1, TASK_REGRESSION, TASK_CLASSIFICATION]
      · simp [fm_learn.init, hlog, h0, h1, TASK_REGRESSION, TASK_CLASSIFICATION]

/-! ## `feature_selection_2dim` -/

section SelectionLemmas

variable {α : Type} [LinearOrderedField α]

theorem selectionInner_spec (v : List (List α)) (k_dim i : Nat) :
    ∀ (js : List Nat) (s : SelectionState α), s.counts + js.length ≤ s.v_sum.length →
      ∃ s1, js.foldlM (selectionBody v k_dim i) s = Except.ok s1 ∧
        s1.counts = s.counts + js.length ∧ s1.v_sum.length = s.v_sum.length ∧
        s1.fp = s.fp ++ js.map (fun j => (inner_prod v k_dim i j, i, j)) := by
  intro js
  induction js with
  | nil =>
    intro s _
    exact ⟨s, rfl, rfl, rfl, by simp⟩
  | cons j js ih =>
    intro s hs
    simp only [List.length_cons] at hs
    have hlt : s.counts < s.v_sum.length := by omega
    obtain ⟨s1, h1, h2, h3, h4⟩ :=
      ih ⟨s.v_sum.set s.counts (inner_prod v k_dim i j), s.counts + 1,
          s.fp ++ [((s.v_sum.set s.counts (inner_prod v k_dim i j)).getD s.counts 0, i, j)]⟩
        (by simp only [List.length_set]; omega)
    refine ⟨s1, ?_, ?_, ?_, ?_⟩
    · simp only [List.foldlM_cons, selectionBody, if_pos hlt]
      exact h1
    · rw [h2]
      simp only [List.length_cons]
      omega
    · rw [h3]
      simp
    · rw [h4]
      simp [List.getD_eq_getElem?_getD, List.getElem?_set_self hlt]

theorem selectionOuter_spec (v : List (List α)) (k_dim n_dim : Nat) :
    ∀ (is : List Nat) (s : SelectionState α),
      s.counts + (is.map (fun i => n_dim - i)).sum ≤ s.v_sum.length →
      ∃ s1, is.foldlM
          (fun s i => (List.range' i (n_dim - i)).foldlM (selectionBody v k_dim i) s) s
            = Except.ok s1 ∧
        s1.counts = s.counts + (is.map (fun i => n_dim - i)).sum ∧
        s1.v_sum.length = s.v_sum.length ∧
        s1.fp = s.fp ++ is.flatMap (fun i =>
          (List.range' i (n_dim - i)).map (fun j => (inner_prod v k_dim i j, i, j))) := by
  intro is
  induction is with
  | nil =>
    intro s _
    exact ⟨s, rfl, by simp, rfl, by simp⟩
  | cons i is ih =>
    intro s hs
    simp only [List.map_cons, List.sum_cons] at hs
    obtain ⟨s1, h1, h2, h3, h4⟩ :=
      selectionInner_spec v k_dim i (List.range' i (n_dim - i)) s
        (by simp only [List.length_range']; omega)
    simp only [List.length_range'] at h2
    obtain ⟨s2, g1, g2, g3, g4⟩ := ih s1 (by omega)
    refine ⟨s2, ?_, ?_, ?_, ?_⟩
    · simp only [List.foldlM_cons, h1]
      exact g1
    · simp only [List.map_cons, List.sum_cons]
      omega
    · omega
    · rw [g4, h4]
      simp

/-- The locals reached by a loop, whether it ran to its end or stopped at a
store outside the buffer. -/
theorem selectionInner_scored (v : List (List α)) (k_dim i : Nat) :
    ∀ (js : List Nat) (s s1 : SelectionState α),
      (∀ l ∈ s.fp, l.1 = inner_prod v k_dim l.2.1 l.2.2) →
      (js.foldlM (selectionBody v k_dim i) s = Except.ok s1 ∨
        js.foldlM (selectionBody v k_dim i) s = Except.error s1) →
      ∀ l ∈ s1.fp, l.1 = inner_prod v k_dim l.2.1 l.2.2 := by
  intro js
  induction js with
  | nil =>
    intro s s1 hs h
    have hs1 : s1 = s := by
      rcases h with h | h
      · exact (Except.ok.inj h).symm
      · exact Except.noConfusion h
    rw [hs1]
    exact hs
  | cons j js ih =>
    intro s s1 hs h
    by_cases hlt : s.counts < s.v_sum.length
    · have hbody : selectionBody v k_dim i s j = Except.ok
          ⟨s.v_sum.set s.counts (inner_prod v k_dim i j), s.counts + 1,
            s.fp ++ [((s.v_sum.set s.counts (inner_prod v k_dim i j)).getD s.counts 0, i, j)]⟩ := by
        simp only [selectionBody, if_pos hlt]
      apply ih _ s1 _ (by simpa only [List.foldlM_cons, hbody] using h)
      intro l hl
      simp only [List.mem_append, List.mem_singleton] at hl
      rcases hl with hl | hl
      · exact hs l hl
      · rw [hl]
        simp [List.getD_eq_getElem?_getD, List.getElem?_set_self hlt]
    · have hbody : selectionBody v k_dim i s j = Except.error s := by
        simp only [selectionBody, if_neg hlt]
      have hs1 : s1 = s := by
        rcases h with h | h
        · simp only [List.foldlM_cons, hbody] at h
          exact Except.noConfusion h
        · simp only [List.foldlM_cons, hbody] at h
          exact (Except.error.inj h).symm
      rw [hs1]
      exact hs

theorem selectionOuter_scored (v : List (List α)) (k_dim n_dim : Nat) :
    ∀ (is : List Nat) (s s1 : SelectionState α),
      (∀ l ∈ s.fp, l.1 = inner_prod v k_dim l.2.1 l.2.2) →
      (is.foldlM
          (fun s i => (List.range' i (n_dim - i)).foldlM (selectionBody v k_dim i) s) s
            = Except.ok s1 ∨
        is.foldlM
          (fun s i => (List.range' i (n_dim - i)).foldlM (selectionBody v k_dim i) s) s
            = Except.error s1) →
      ∀ l ∈ s1.fp, l.1 = inner_prod v k_dim l.2.1 l.2.2 := by
  intro is
  induction is with
  | nil =>
    intro s s1 hs h
    have hs1 : s1 = s := by
      rcases h with h | h
      · exact (Except.ok.inj h).symm
      · exact Except.noConfusion h
    rw [hs1]
    exact hs
  | cons i is ih =>
    intro s s1 hs h
    cases hin : (List.range' i (n_dim - i)).foldlM (selectionBody v k_dim i) s with
    | ok s2 =>
      have hs2 := selectionInner_scored v k_dim i _ s s2 hs (Or.inl hin)
      exact ih s2 s1 hs2 (by simpa only [List.foldlM_cons, hin] using h)
    | error s2 =>
      have hs2 := selectionInner_scored v k_dim i _ s s2 hs (Or.inr hin)
      have hs1 : s1 = s2 := by
        rcases h with h | h
        · simp only [List.foldlM_cons, hin] at h
          exact Except.noConfusion h
        · simp only [List.foldlM_cons, hin] at h
          exact (Except.error.inj h).symm
      rw [hs1]
      exact hs2

theorem sum_remaining_columns (n : Nat) :
    ((List.range n).map (fun i => n - i)).sum * 2 = (1 + n) * n := by
  induction n with
  | zero => simp
  | succ k ih =>
    rw [List.range_succ_eq_map, List.map_cons, List.sum_cons, List.map_map]
    have hfun : ((fun i => k + 1 - i) ∘ Nat.succ) = (fun i => k - i) := by
      funext i
      simp only [Function.comp, Nat.succ_eq_add_one]
      omega
    rw [hfun, Nat.add_mul, ih, Nat.sub_zero]
    ring

theorem mem_pairsInOrder (n a b : Nat) : (a, b) ∈ pairsInOrder n ↔ a ≤ b ∧ b < n := by
  simp only [pairsInOrder, List.mem_flatMap, List.mem_range, List.mem_map, List.mem_range'_1,
    Prod.mk.injEq]
  constructor
  · rintro ⟨i, hi, j, ⟨hj1, hj2⟩, rfl, rfl⟩
    omega
  · rintro ⟨h1, h2⟩
    exact ⟨a, by omega, b, ⟨h1, by omega⟩, rfl, rfl⟩

theorem pairsInOrder_pairwise (n : Nat) :
    (pairsInOrder n).Pairwise (fun a b => a.1 < b.1 ∨ (a.1 = b.1 ∧ a.2 < b.2)) := by
  rw [pairsInOrder, List.pairwise_flatMap]
  constructor
  · intro i _
    rw [List.pairwise_map]
    exact (List.pairwise_lt_range' i (n - i)).imp (fun h => Or.inr ⟨rfl, h⟩)
  · refine (List.pairwise_lt_range n).imp ?_
    intro i1 i2 h x hx y hy
    simp only [List.mem_map] at hx hy
    obtain ⟨_, _, rfl⟩ := hx
    obtain ⟨_, _, rfl⟩ := hy
    exact Or.inl h

theorem length_pairsInOrder (n : Nat) : (pairsInOrder n).length = n * (n + 1) / 2 := by
  have h : (pairsInOrder n).length = ((List.range n).map (fun i => n - i)).sum := by
    simp [pairsInOrder, List.length_flatMap, Function.comp_def]
  rw [h]
  have h2 := sum_remaining_columns n
  have h3 : (1 + n) * n = n * (n + 1) := by ring
  rw [h3] at h2
  exact (Nat.div_eq_of_eq_mul_left (by decide) h2.symm).symm

end SelectionLemmas

theorem wrapInt_of_range {x : Int} (h0 : 0 ≤ x) (h1 : x < 2 ^ 31) : wrapInt x = x := by
  unfold wrapInt
  omega

theorem selection_size_in_range (n : Nat) (h : n ≤ 46340) :
    (wrapInt (wrapInt (1 + (n : Int)) * (n : Int))).tdiv 2
      = (((1 + n) * n / 2 : Nat) : Int) := by
  have hprod : (1 + n) * n ≤ 46341 * 46340 := Nat.mul_le_mul (by omega) h
  have hcast : (1 + (n : Int)) * (n : Int) = (((1 + n) * n : Nat) : Int) := by
    push_cast
    ring
  have hsum : wrapInt (1 + (n : Int)) = 1 + (n : Int) :=
    wrapInt_of_range (by omega) (by omega)
  rw [hsum, hcast, wrapInt_of_range (Int.ofNat_nonneg _) (by omega)]
  exact (Int.ofNat_tdiv _ _).symm

theorem feature_selection_2dim_in_range {α ρ : Type} [LinearOrderedField α]
    (self : fm_learn α ρ) (h : self.fm.v.dim2 ≤ 46340) :
    ∃ s, self.feature_selection_2dim = SelectionResult.finished s ∧
      s.counts = (1 + self.fm.v.dim2) * self.fm.v.dim2 / 2 ∧
      s.v_sum.length = (1 + self.fm.v.dim2) * self.fm.v.dim2 / 2 ∧
      s.fp = (pairsInOrder self.fm.v.dim2).map (fun p =>
        (inner_prod self.fm.v.value self.fm.v.dim1 p.1 p.2, p.1, p.2)) := by
  have hslots : ((List.range self.fm.v.dim2).map (fun i => self.fm.v.dim2 - i)).sum
      = (1 + self.fm.v.dim2) * self.fm.v.dim2 / 2 :=
    (Nat.div_eq_of_eq_mul_left (by decide) (sum_remaining_columns self.fm.v.dim2).symm).symm
  obtain ⟨s, h1, h2, h3, h4⟩ :=
    selectionOuter_spec self.fm.v.value self.fm.v.dim1 self.fm.v.dim2
      (List.range self.fm.v.dim2)
      ⟨List.replicate ((1 + self.fm.v.dim2) * self.fm.v.dim2 / 2) 0, 0, []⟩
      (by simp only [List.length_replicate, Nat.zero_add]; exact le_of_eq hslots)
  simp only [List.length_replicate, Nat.zero_add, List.nil_append] at h2 h3 h4
  refine ⟨s, ?_, h2.trans hslots, h3, ?_⟩
  · have hneg : ¬ (((1 + self.fm.v.dim2) * self.fm.v.dim2 / 2 : Nat) : Int) < 0 :=
      not_lt.2 (Int.ofNat_nonneg _)
    simp only [fm_learn.feature_selection_2dim, selection_size_in_range _ h, if_neg hneg,
      Int.toNat_ofNat, h1]
  · rw [h4, pairsInOrder, List.map_flatMap]
    simp [Function.comp_def]

/-- Within the range of `int`, for a factor matrix with `n <= 46340` feature
columns, `feature_selection_2dim` runs to its end with every store inside the
`(1+n)*n/2` slots of the score buffer, the final count being exactly that
number, and writes exactly `n(n+1)/2` lines: one for every pair `(i, j)` with
`i <= j < n`, none twice, with `i` ascending and then `j` ascending from `i`.
For `n = 3` these are the six lines `(0,0), (0,1), (0,2), (1,1), (1,2), (2,2)`. -/
theorem feature_selection_2dim_pairs {α ρ : Type} [LinearOrderedField α]
    (self : fm_learn α ρ) (hrange : self.fm.v.dim2 ≤ 46340) :
    ∃ s, self.feature_selection_2dim = SelectionResult.finished s ∧
      s.fp.length = self.fm.v.dim2 * (self.fm.v.dim2 + 1) / 2 ∧
      s.counts = s.fp.length ∧
      s.v_sum.length = (1 + self.fm.v.dim2) * self.fm.v.dim2 / 2 ∧
      s.counts ≤ s.v_sum.length ∧
      s.fp.map (fun l => (l.2.1, l.2.2)) = pairsInOrder self.fm.v.dim2 ∧
      (∀ i j, (i, j) ∈ s.fp.map (fun l => (l.2.1, l.2.2)) ↔ i ≤ j ∧ j < self.fm.v.dim2) ∧
      (s.fp.map (fun l => (l.2.1, l.2.2))).Nodup ∧
      (s.fp.map (fun l => (l.2.1, l.2.2))).Pairwise
        (fun a b => a.1 < b.1 ∨ (a.1 = b.1 ∧ a.2 < b.2)) ∧
      pairsInOrder 3 = [(0, 0), (0, 1), (0, 2), (1, 1), (1, 2), (2, 2)] ∧
      ((factorLearner 2 3 [[1, 2, 3], [4, 5, 6]]).feature_selection_2dim).lines.map
          (fun l => (l.2.1, l.2.2))
        = [(0, 0), (0, 1), (0, 2), (1, 1), (1, 2), (2, 2)] := by
  obtain ⟨s, h1, h2, h3, h4⟩ := feature_selection_2dim_in_range self hrange
  have hpairs : s.fp.map (fun l => (l.2.1, l.2.2)) = pairsInOrder self.fm.v.dim2 := by
    rw [h4, List.map_map]
    simp [Function.comp_def]
  have hlen : s.fp.length = self.fm.v.dim2 * (self.fm.v.dim2 + 1) / 2 := by
    rw [← length_pairsInOrder, ← hpairs, List.length_map]
  have hcount : s.counts = s.fp.length := by
    have hcomm : (1 + self.fm.v.dim2) * self.fm.v.dim2
        = self.fm.v.dim2 * (self.fm.v.dim2 + 1) := by ring
    rw [hlen, h2, hcomm]
  have hnodup : (pairsInOrder self.fm.v.dim2).Nodup := by
    refine (pairsInOrder_pairwise self.fm.v.dim2).imp ?_
    intro a b hab heq
    subst heq
    omega
  refine ⟨s, h1, hlen, hcount, h3, ?_, hpairs, ?_, ?_, ?_, by decide, by decide⟩
  · rw [h2, h3]
  · intro i j
    rw [hpairs]
    exact mem_pairsInOrder _ i j
  · rw [hpairs]
    exact hnodup
  · rw [hpairs]
    exact pairsInOrder_pairwise _

theorem feature_selection_2dim_pairs_witness :
    ∃ s, (factorLearner 2 3 [[1, 2, 3], [4, 5, 6]]).feature_selection_2dim
        = SelectionResult.finished s ∧
      s.fp.length = 3 * (3 + 1) / 2 ∧
      s.counts = s.fp.length ∧
      s.v_sum.length = (1 + 3) * 3 / 2 ∧
      s.counts ≤ s.v_sum.length ∧
      s.fp.map (fun l => (l.2.1, l.2.2)) = pairsInOrder 3 ∧
      (∀ i j, (i, j) ∈ s.fp.map (fun l => (l.2.1, l.2.2)) ↔ i ≤ j ∧ j < 3) ∧
      (s.fp.map (fun l => (l.2.1, l.2.2))).Nodup ∧
      (s.fp.map (fun l => (l.2.1, l.2.2))).Pairwise
        (fun a b => a.1 < b.1 ∨ (a.1 = b.1 ∧ a.2 < b.2)) ∧
      pairsInOrder 3 = [(0, 0), (0, 1), (0, 2), (1, 1), (1, 2), (2, 2)] ∧
      ((factorLearner 2 3 [[1, 2, 3], [4, 5, 6]]).feature_selection_2dim).lines.map
          (fun l => (l.2.1, l.2.2))
        = [(0, 0), (0, 1), (0, 2), (1, 1), (1, 2), (2, 2)] :=
  feature_selection_2dim_pairs (factorLearner 2 3 [[1, 2, 3], [4, 5, 6]]) (by decide)

/-- C10, on the code: the claim is about every number `n` of feature columns,
and the code breaks it from `n = 46341` on.  There the size of the score
buffer, computed in `int`, overflows: `(1 + 46341) * 46341` wraps to
`-2147432674`, its half is negative, `new double[...]` throws, and the run ends
with no line written where the claim has `46341 * 46342 / 2 = 1073767311`
lines inside the buffer. -/
theorem feature_selection_2dim_int_overflow :
    wrapInt (wrapInt (1 + 46341) * 46341) = -2147432674 ∧
    (wrapInt (wrapInt (1 + 46341) * 46341)).tdiv 2 = -1073716337 ∧
    (factorLearner 1 46341 [List.replicate 46341 0]).feature_selection_2dim
      = SelectionResult.bad_alloc ∧
    ((factorLearner 1 46341 [List.replicate 46341 0]).feature_selection_2dim).lines = [] ∧
    46341 * (46341 + 1) / 2 = 1073767311 ∧
    (wrapInt (wrapInt (1 + 65536) * 65536)).tdiv 2 = 32768 := by
  refine ⟨by decide, by decide, ?_, ?_, by decide, by decide⟩
  · decide
  · decide

/-! ## Scores of `feature_selection_2dim` -/

theorem foldl_add_eq_sum {α β : Type} [AddCommMonoid α] (g : β → α) :
    ∀ (l : List β) (a : α), l.foldl (fun ret i => ret + g i) a = a + (l.map g).sum := by
  intro l
  induction l with
  | nil => intro a; simp
  | cons x xs ih =>
    intro a
    simp only [List.foldl_cons, List.map_cons, List.sum_cons, ih, add_assoc]

theorem inner_prod_eq {α : Type} [LinearOrderedField α] (v : List (List α))
    (rows c1 c2 : Nat) :
    inner_prod v rows c1 c2 =
      |((List.range rows).map (fun f =>
          (v.getD f []).getD c1 0 * (v.getD f []).getD c2 0)).sum| := by
  unfold inner_prod
  simp only [foldl_add_eq_sum, zero_add]

theorem feature_selection_2dim_lines_scored {α ρ : Type} [LinearOrderedField α]
    (self : fm_learn α ρ) :
    ∀ l ∈ (self.feature_selection_2dim).lines,
      l.1 = inner_prod self.fm.v.value self.fm.v.dim1 l.2.1 l.2.2 := by
  intro l hl
  unfold fm_learn.feature_selection_2dim at hl
  simp only [] at hl
  split at hl
  · simp [SelectionResult.lines] at hl
  · split at hl
    · rename_i s hs
      exact selectionOuter_scored self.fm.v.value self.fm.v.dim1 self.fm.v.dim2 _ _ s
        (by simp) (Or.inl hs) l hl
    · rename_i s hs
      exact selectionOuter_scored self.fm.v.value self.fm.v.dim1 self.fm.v.dim2 _ _ s
        (by simp) (Or.inr hs) l hl

/-- C11: every line written by `feature_selection_2dim` for a pair `(i, j)`,
in a run that reaches its end and in one that is cut short alike, carries the
score `|sum over f < k of v[f][i] * v[f][j]|`, the absolute inner product of
the columns `i` and `j` of the `k`-row factor matrix; so every score is
`>= 0`, the score of `(i, j)` is that of `(j, i)`, and the score of `(i, i)` is
the sum of the squares of column `i`.  Within the range of `int`
(`n <= 46340` columns) the lines are those of all pairs `i <= j < n` in
order. -/
theorem feature_selection_2dim_scores {α ρ : Type} [LinearOrderedField α]
    (self : fm_learn α ρ) :
    (∀ l ∈ (self.feature_selection_2dim).lines,
      l.1 = |((List.range self.fm.v.dim1).map (fun f =>
          (self.fm.v.value.getD f []).getD l.2.1 0
            * (self.fm.v.value.getD f []).getD l.2.2 0)).sum| ∧
      0 ≤ l.1 ∧ l.1 = inner_prod self.fm.v.value self.fm.v.dim1 l.2.1 l.2.2) ∧
    (self.fm.v.dim2 ≤ 46340 →
      ∃ s, self.feature_selection_2dim = SelectionResult.finished s ∧
        s.fp = (pairsInOrder self.fm.v.dim2).map (fun p =>
          (|((List.range self.fm.v.dim1).map (fun f =>
              (self.fm.v.value.getD f []).getD p.1 0
                * (self.fm.v.value.getD f []).getD p.2 0)).sum|, p.1, p.2))) ∧
    (∀ i j, inner_prod self.fm.v.value self.fm.v.dim1 i j
      = inner_prod self.fm.v.value self.fm.v.dim1 j i) ∧
    (∀ i, inner_prod self.fm.v.value self.fm.v.dim1 i i
      = ((List.range self.fm.v.dim1).map (fun f =>
          (self.fm.v.value.getD f []).getD i 0 ^ 2)).sum) := by
  refine ⟨?_, ?_, ?_, ?_⟩
  · intro l hl
    have h := feature_selection_2dim_lines_scored self l hl
    refine ⟨?_, ?_, h⟩
    · rw [h, inner_prod_eq]
    · rw [h, inner_prod_eq]
      exact abs_nonneg _
  · intro hrange
    obtain ⟨s, h1, _, _, h4⟩ := feature_selection_2dim_in_range self hrange
    refine ⟨s, h1, ?_⟩
    rw [h4]
    simp only [inner_prod_eq]
  · intro i j
    simp only [inner_prod_eq, mul_comm]
  · intro i
    rw [inner_prod_eq]
    have hnn : 0 ≤ ((List.range self.fm.v.dim1).map (fun f =>
        (self.fm.v.value.getD f []).getD i 0 * (self.fm.v.value.getD f []).getD i 0)).sum := by
      apply List.sum_nonneg
      intro x hx
      obtain ⟨f, _, rfl⟩ := List.mem_map.1 hx
      exact mul_self_nonneg _
    rw [abs_of_nonneg hnn]
    simp only [pow_two]

theorem feature_selection_2dim_scores_witness :
    ∃ s, (factorLearner 2 3 [[1, 2, 3], [4, 5, 6]]).feature_selection_2dim
        = SelectionResult.finished s ∧
      s.fp = (pairsInOrder 3).map (fun p =>
        (|((List.range 2).map (fun f =>
            (([[1, 2, 3], [4, 5, 6]] : List (List ℚ)).getD f []).getD p.1 0
              * (([[1, 2, 3], [4, 5, 6]] : List (List ℚ)).getD f []).getD p.2 0)).sum|,
          p.1, p.2)) :=
  (feature_selection_2dim_scores (factorLearner 2 3 [[1, 2, 3], [4, 5, 6]])).2.1 (by decide)

/-! ## Buffer sizes after `init` -/

theorem init_returned {α ρ : Type} [LinearOrderedField α] (self learner : fm_learn α ρ)
    (h : self.init = Completion.returned learner) :
    learner.sum = self.sum.setSize self.fm.num_factor ∧
    learner.sum_sqr = self.sum_sqr.setSize self.fm.num_factor ∧
    learner.pred_q_term =
      self.pred_q_term.setSize self.fm.num_factor (self.meta.num_relations + 1) ∧
    learner.fm = self.fm ∧ learner.meta = self.meta ∧ learner.task = self.task := by
  cases hlog : self.log with
  | none =>
    simp only [fm_learn.init, hlog, Completion.returned.injEq] at h
    subst h
    exact ⟨rfl, rfl, rfl, rfl, rfl, rfl⟩
  | some log =>
    by_cases h0 : self.task = 0
    · simp only [fm_learn.init, hlog, h0, TASK_REGRESSION, if_true,
        Completion.returned.injEq] at h
      subst h
      exact ⟨rfl, rfl, rfl, rfl, rfl, h0.symm⟩
    · by_cases h1 : self.task = 1
      · simp only [fm_learn.init, hlog, h1, TASK_REGRESSION, TASK_CLASSIFICATION,
          one_ne_zero, if_false, if_true, Completion.returned.injEq] at h
        subst h
        exact ⟨rfl, rfl, rfl, rfl, rfl, h1.symm⟩
      · simp [fm_learn.init, hlog, h0, h1, TASK_REGRESSION, TASK_CLASSIFICATION] at h

/-- C12: after every successful `init`, whatever the buffers were before, `sum`
and `sum_sqr` have `num_factor` cells and `pred_q_term` has `num_factor` rows
of `num_relations + 1` cells; a second `init` after the model was replaced by
one with another factor count leaves the buffers sized for that latest
count. -/
theorem init_sizes_buffers {α ρ : Type} [LinearOrderedField α] (self : fm_learn α ρ) :
    (∀ learner, self.init = Completion.returned learner →
      learner.sum.dim = self.fm.num_factor ∧
      learner.sum.value.length = self.fm.num_factor ∧
      learner.sum_sqr.dim = self.fm.num_factor ∧
      learner.sum_sqr.value.length = self.fm.num_factor ∧
      learner.pred_q_term.dim1 = self.fm.num_factor ∧
      learner.pred_q_term.dim2 = self.meta.num_relations + 1 ∧
      learner.pred_q_term.value.length = self.fm.num_factor ∧
      (∀ row ∈ learner.pred_q_term.value, row.length = self.meta.num_relations + 1)) ∧
    (∀ learner (fm2 : fm_model α) learner2, self.init = Completion.returned learner →
      fm_learn.init { learner with fm := fm2 } = Completion.returned learner2 →
      learner2.sum.dim = fm2.num_factor ∧
      learner2.sum.value.length = fm2.num_factor ∧
      learner2.sum_sqr.dim = fm2.num_factor ∧
      learner2.sum_sqr.value.length = fm2.num_factor ∧
      learner2.pred_q_term.dim1 = fm2.num_factor ∧
      learner2.pred_q_term.dim2 = self.meta.num_relations + 1 ∧
      learner2.pred_q_term.value.length = fm2.num_factor) ∧
    ((self.log = none ∨ self.task = 0 ∨ self.task = 1) →
      ∃ learner, self.init = Completion.returned learner ∧
        ∀ fm2 : fm_model α, ∃ learner2,
          fm_learn.init { learner with fm := fm2 } = Completion.returned learner2) := by
  refine ⟨?_, ?_, ?_⟩
  · intro learner h
    obtain ⟨h1, h2, h3, _, _, _⟩ := init_returned self learner h
    rw [h1, h2, h3]
    simp only [DVector.setSize, DMatrix.setSize, List.length_replicate, true_and]
    intro row hrow
    rw [List.eq_of_mem_replicate hrow, List.length_replicate]
  · intro learner fm2 learner2 h hsecond
    obtain ⟨_, _, _, _, hmeta, _⟩ := init_returned self learner h
    obtain ⟨h1, h2, h3, _, _, _⟩ := init_returned _ learner2 hsecond
    rw [h1, h2, h3]
    simp only [DVector.setSize, DMatrix.setSize, List.length_replicate, hmeta, and_self]
  · intro hok
    obtain ⟨learner, hl⟩ := (init_checks_task_only_with_sink_aux self).2.2 hok
    refine ⟨learner, hl, ?_⟩
    intro fm2
    obtain ⟨_, _, _, _, _, htask⟩ := init_returned self learner hl
    apply (init_checks_task_only_with_sink_aux _).2.2
    rcases hok with hnone | h0 | h1
    · left
      simp only [fm_learn.init, hnone, Completion.returned.injEq] at hl
      subst hl
      rfl
    · right; left
      exact htask.trans h0
    · right; right
      exact htask.trans h1

theorem init_sizes_buffers_witness :
    ∃ learner, (stubLearner [] 0 5 0).init = Completion.returned learner ∧
      ∀ fm2 : fm_model ℚ, ∃ learner2,
        fm_learn.init { learner with fm := fm2 } = Completion.returned learner2 :=
  (init_sizes_buffers (stubLearner [] 0 5 0)).2.2 (Or.inl rfl)

/-! ## Small inputs and ties of `argsort`, and `ordered_sequence` -/

/-- C13: for `size = 0` or `size = 1` and `asc` in `{+1, -1}`, `argsort` returns
the identity sequence of length `size`, the empty array or `[0]`, straight from
`ordered_sequence`: the same result for every key array, so no key is read and
the main loop is not entered. -/
theorem argsort_small_size_identity {α : Type} [LinearOrder α] [Ring α] (arr : List α)
    (size : Nat) (asc : Int) (hsize : size ≤ 1) (hasc : asc = 1 ∨ asc = -1) :
    argsort arr size asc = ArgsortResult.returned (List.range size) ∧
    argsort arr size asc
      = ArgsortResult.returned (ordered_sequence size (none : Option (List Nat)) 0) ∧
    (size = 0 → argsort arr size asc = ArgsortResult.returned []) ∧
    (size = 1 → argsort arr size asc = ArgsortResult.returned [0]) ∧
    (∀ arr2 : List α, argsort arr2 size asc = argsort arr size asc) := by
  have hok : ¬ (asc ≠ 1 ∧ asc ≠ -1) := by
    rcases hasc with h | h <;> simp [h]
  have hrun : ∀ a : List α, argsort a size asc
      = ArgsortResult.returned (ordered_sequence size (none : Option (List Nat)) 0) := by
    intro a
    simp only [argsort, if_neg hok, if_pos hsize]
  refine ⟨?_, hrun arr, ?_, ?_, ?_⟩
  · rw [hrun arr, ordered_sequence_nat]
  · intro h0
    subst h0
    rw [hrun arr, ordered_sequence_nat]
    rfl
  · intro h1
    subst h1
    rw [hrun arr, ordered_sequence_nat]
    rfl
  · intro arr2
    rw [hrun arr2, hrun arr]

theorem argsort_small_size_identity_witness :
    argsort [(7 : Int)] 1 (-1) = ArgsortResult.returned (List.range 1) ∧
    argsort [(7 : Int)] 1 (-1)
      = ArgsortResult.returned (ordered_sequence 1 (none : Option (List Nat)) 0) ∧
    (1 = 0 → argsort [(7 : Int)] 1 (-1) = ArgsortResult.returned []) ∧
    (1 = 1 → argsort [(7 : Int)] 1 (-1) = ArgsortResult.returned [0]) ∧
    (∀ arr2 : List Int, argsort arr2 1 (-1) = argsort [(7 : Int)] 1 (-1)) :=
  argsort_small_size_identity [(7 : Int)] 1 (-1) (by decide) (by decide)

/-- C14: `ordered_sequence(size, idx, start_from)` returns a sequence whose
element at every position `i < size` is `i + start_from`.  Without a buffer
the sequence has length `size`, and it is `0, ..., size - 1` for
`start_from = 0`; with a buffer of at least `size` cells the result is that
buffer with its first `size` cells overwritten and the others untouched. -/
theorem ordered_sequence_values {T : Type} [AddMonoidWithOne T] (size : Nat)
    (start_from : T) :
    ((ordered_sequence size none start_from).length = size ∧
      ∀ i, i < size →
        (ordered_sequence size none start_from)[i]? = some ((i : T) + start_from)) ∧
    (∀ buf : List T, size ≤ buf.length →
      (ordered_sequence size (some buf) start_from).length = buf.length ∧
      (∀ i, i < size →
        (ordered_sequence size (some buf) start_from)[i]? = some ((i : T) + start_from)) ∧
      (∀ i, size ≤ i → (ordered_sequence size (some buf) start_from)[i]? = buf[i]?)) ∧
    ordered_sequence size (none : Option (List Nat)) 0 = List.range size := by
  refine ⟨⟨?_, ?_⟩, ?_, ordered_sequence_nat size⟩
  · simp only [ordered_sequence, ordered_sequence_loop_length, List.length_replicate]
  · intro i hi
    unfold ordered_sequence
    simp only []
    rw [ordered_sequence_loop_getElem?]
    simp [hi]
  · intro buf hbuf
    refine ⟨?_, ?_, ?_⟩
    · simp only [ordered_sequence, ordered_sequence_loop_length]
    · intro i hi
      unfold ordered_sequence
      simp only []
      rw [ordered_sequence_loop_getElem?]
      have hi2 : i < buf.length := by omega
      simp [hi, hi2]
    · intro i hi
      unfold ordered_sequence
      simp only []
      rw [ordered_sequence_loop_getElem?]
      have hi2 : ¬ i < size := by omega
      simp [hi2]

theorem ordered_sequence_values_witness :
    (ordered_sequence 2 (some [(9 : Int), 9, 9]) 5).length = 3 ∧
    (∀ i : Nat, i < 2 →
      (ordered_sequence 2 (some [(9 : Int), 9, 9]) 5)[i]? = some ((i : Int) + 5)) ∧
    (∀ i : Nat, 2 ≤ i →
      (ordered_sequence 2 (some [(9 : Int), 9, 9]) 5)[i]? = [(9 : Int), 9, 9][i]?) :=
  (ordered_sequence_values 2 (5 : Int)).2.1 [(9 : Int), 9, 9] (by decide)

/-- C18: `argsort` is not stable.  On the keys `[1, 1]` with `asc = +1` it
returns `[1, 0]`: the indices `0 < 1` hold equal keys, and index `1` stands
before index `0` in the result. -/
theorem argsort_not_stable :
    argsort [(1 : Int), 1] 2 1 = ArgsortResult.returned [1, 0] ∧
    ∃ (idx : List Nat) (a b : Nat),
      argsort [(1 : Int), 1] 2 1 = ArgsortResult.returned idx ∧
      a < b ∧ [(1 : Int), 1].getD a 0 = [(1 : Int), 1].getD b 0 ∧
      idx.indexOf b < idx.indexOf a ∧ a ∈ idx ∧ b ∈ idx := by
  refine ⟨by decide, [1, 0], 0, 1, by decide, by decide, by decide, by decide, by decide,
    by decide⟩

/-! ## Regression evaluation: the sink and inverted bounds -/

theorem evaluate_regression_run {α ρ : Type} [LinearOrderedField α] (rt : Runtime α)
    (self : fm_learn α ρ) (data : Data α ρ) (m : LargeSparseMatrix ρ)
    (hdata : data.data = some m) (htask : self.task = 0) (hn : 1 ≤ m.getNumRows) :
    (self.evaluate rt data).outcome =
        Completion.returned (Double.num (rt.sqrt (((clampedErrors self m data.target).map
          (fun e => e ^ 2)).sum / (m.getNumRows : α)))) ∧
    (self.evaluate rt data).log =
        self.log.map (fun l => l ++
          [RLogCall.log "rmse" (Double.num (rt.sqrt (((clampedErrors self m data.target).map
              (fun e => e ^ 2)).sum / (m.getNumRows : α)))),
           RLogCall.log "mae" (Double.num (((clampedErrors self m data.target).map
              (fun e => |e|)).sum / (m.getNumRows : α))),
           RLogCall.log "time_pred" (Double.num (rt.usertime_after - rt.usertime_before))]) := by
  have hrun : self.evaluate rt data = self.evaluate_regression rt data := by
    simp only [fm_learn.evaluate, hdata, htask, TASK_REGRESSION, if_true]
  rw [hrun, evaluate_regression_outcome rt self data m hdata]
  simp only [sqrtDouble_divCount_squares rt _ _ hn]
  simp only [Double.divCount_of_pos _ hn]
  simp only [clampedErrors, List.map_map, Function.comp_def, rowError, clampPrediction,
    and_self]

/-- C15: with a metrics sink attached, `evaluate` with the regression task on a
dataset with `n >= 1` rows records under "rmse" exactly the value it returns
and under "mae" the value `(sum over all rows of |c_r - t_r|) / n` with `c_r`
the clamped prediction, which is `1/3` for targets `1, 2, 3`, predictions
`1, 2, 4` and bounds `[0, 5]`; with no sink attached nothing is recorded, and
the returned value is the same with and without a sink. -/
theorem evaluate_regression_records_metrics :
    (∀ {α ρ : Type} [LinearOrderedField α] (rt : Runtime α) (self : fm_learn α ρ)
        (data : Data α ρ) (m : LargeSparseMatrix ρ),
        data.data = some m → self.task = 0 → 1 ≤ m.getNumRows →
        (∀ log, self.log = some log →
          ∃ rmse, (self.evaluate rt data).outcome = Completion.returned rmse ∧
            (self.evaluate rt data).log = some (log ++
              [RLogCall.log "rmse" rmse,
               RLogCall.log "mae" (Double.num (((clampedErrors self m data.target).map
                  (fun e => |e|)).sum / (m.getNumRows : α))),
               RLogCall.log "time_pred"
                 (Double.num (rt.usertime_after - rt.usertime_before))])) ∧
        (self.log = none → (self.evaluate rt data).log = none) ∧
        (∀ log, ((withSink self log).evaluate rt data).outcome
          = (self.evaluate rt data).outcome)) ∧
    (∀ sqrt : ℚ → ℚ,
        ((withSink (stubLearner [1, 2, 4] 0 5 0) []).evaluate ⟨sqrt, 0, 0⟩
            (stubData [1, 2, 3])).log =
          some [RLogCall.log "rmse" (Double.num (sqrt (1 / 3))),
                RLogCall.log "mae" (Double.num (1 / 3)),
                RLogCall.log "time_pred" (Double.num 0)] ∧
        ((withSink (stubLearner [1, 2, 4] 0 5 0) []).evaluate ⟨sqrt, 0, 0⟩
            (stubData [1, 2, 3])).outcome = Completion.returned (Double.num (sqrt (1 / 3))) ∧
        ((stubLearner [1, 2, 4] 0 5 0).evaluate ⟨sqrt, 0, 0⟩ (stubData [1, 2, 3])).log
          = none) := by
  constructor
  · intro α ρ _ rt self data m hdata htask hn
    obtain ⟨hout, hlog⟩ := evaluate_regression_run rt self data m hdata htask hn
    refine ⟨?_, ?_, ?_⟩
    · intro log hl
      refine ⟨_, hout, ?_⟩
      rw [hlog, hl]
      rfl
    · intro hl
      rw [hlog, hl]
      rfl
    · intro log
      rw [hout, (evaluate_regression_run rt (withSink self log) data m hdata htask hn).1]
      rfl
  · intro sqrt
    refine ⟨?_, ?_, ?_⟩
    · simp [fm_learn.evaluate, fm_learn.evaluate_regression, withSink, stubLearner, stubData,
        regressionLoop, TASK_REGRESSION, LargeSparseMatrix.getNumRows,
        LargeSparseMatrix.begin, LargeSparseMatrix.end, LargeSparseMatrix.next,
        LargeSparseMatrix.getRowIndex, rowError, clampPrediction, Double.divCount,
        Runtime.sqrtDouble]
      norm_num
    · simp [fm_learn.evaluate, fm_learn.evaluate_regression, withSink, stubLearner, stubData,
        regressionLoop, TASK_REGRESSION, LargeSparseMatrix.getNumRows,
        LargeSparseMatrix.begin, LargeSparseMatrix.end, LargeSparseMatrix.next,
        LargeSparseMatrix.getRowIndex, rowError, clampPrediction, Double.divCount,
        Runtime.sqrtDouble]
      norm_num
    · simp [fm_learn.evaluate, fm_learn.evaluate_regression, stubLearner, stubData,
        regressionLoop, TASK_REGRESSION, LargeSparseMatrix.getNumRows,
        LargeSparseMatrix.begin, LargeSparseMatrix.end, LargeSparseMatrix.next,
        LargeSparseMatrix.getRowIndex, rowError, clampPrediction, Double.divCount,
        Runtime.sqrtDouble]

theorem evaluate_regression_records_metrics_witness :
    ∃ rmse,
      ((withSink (stubLearner [1, 2, 4] 0 5 0) []).evaluate ⟨id, 0, 0⟩
          (stubData [1, 2, 3])).outcome = Completion.returned rmse ∧
      ((withSink (stubLearner [1, 2, 4] 0 5 0) []).evaluate ⟨id, 0, 0⟩
          (stubData [1, 2, 3])).log = some ([] ++
        [RLogCall.log "rmse" rmse,
         RLogCall.log "mae" (Double.num
           (((clampedErrors (withSink (stubLearner [1, 2, 4] 0 5 0) [])
            ⟨List.replicate 3 (), 0⟩ [1, 2, 3]).map (fun e => |e|)).sum / ((3 : Nat) : ℚ))),
         RLogCall.log "time_pred" (Double.num (id (0 : ℚ) - id 0))]) :=
  (evaluate_regression_records_metrics.1 ⟨id, 0, 0⟩ (withSink (stubLearner [1, 2, 4] 0 5 0) [])
    (stubData [1, 2, 3]) ⟨List.replicate 3 (), 0⟩ rfl rfl (by decide)).1 [] rfl

/-- C20: when the bounds are inverted, `min_target > max_target`, regression
evaluation is not rejected.  The lower bound is applied last, so every
prediction is replaced by `min_target`, and the returned value is
`sqrt((sum over rows of (min_target - t_r)^2) / n)` whatever `predict_case`
answers. -/
theorem evaluate_regression_inverted_bounds {α ρ : Type} [LinearOrderedField α]
    (rt : Runtime α) (self : fm_learn α ρ) (data : Data α ρ) (m : LargeSparseMatrix ρ)
    (hdata : data.data = some m) (htask : self.task = 0) (hrows : 1 ≤ m.getNumRows)
    (hinv : self.max_target < self.min_target) :
    (∀ p, clampPrediction self p = self.min_target) ∧
    (self.evaluate rt data).outcome =
      Completion.returned (Double.num (rt.sqrt (((List.range m.getNumRows).map (fun r =>
        (self.min_target - data.target.getD r 0) ^ 2)).sum / (m.getNumRows : α)))) ∧
    (∀ hook : Data α ρ → α,
      (fm_learn.evaluate rt { self with predict_case := hook } data).outcome
        = (self.evaluate rt data).outcome) := by
  have hclamp : ∀ (x : α), max self.min_target (min self.max_target x) = self.min_target := by
    intro x
    exact max_eq_left (le_trans (min_le_left _ _) (le_of_lt hinv))
  have hformula : ∀ learner : fm_learn α ρ, learner.task = 0 →
      learner.min_target = self.min_target → learner.max_target = self.max_target →
      (learner.evaluate rt data).outcome =
        Completion.returned (Double.num (rt.sqrt (((List.range m.getNumRows).map (fun r =>
          (self.min_target - data.target.getD r 0) ^ 2)).sum / (m.getNumRows : α)))) := by
    intro learner ht hmin hmax
    rw [(evaluate_regression_run rt learner data m hdata ht hrows).1]
    simp only [clampedErrors, List.map_map, Function.comp_def, hmin, hmax, hclamp]
  refine ⟨?_, hformula self htask rfl rfl, ?_⟩
  · intro p
    simp only [clampPrediction]
    exact hclamp p
  · intro hook
    rw [hformula self htask rfl rfl]
    exact hformula _ htask rfl rfl

theorem evaluate_regression_inverted_bounds_witness :
    (∀ p, clampPrediction (stubLearner [1, 2, 4] 5 0 0) p = 5) ∧
    ((stubLearner [1, 2, 4] 5 0 0).evaluate ⟨id, 0, 0⟩ (stubData [1, 2, 3])).outcome =
      Completion.returned (Double.num (id (((List.range 3).map (fun r =>
        ((5 : ℚ) - ([1, 2, 3] : List ℚ).getD r 0) ^ 2)).sum / ((3 : Nat) : ℚ)))) ∧
    (∀ hook : Data ℚ Unit → ℚ,
      (fm_learn.evaluate ⟨id, 0, 0⟩
          { stubLearner [1, 2, 4] 5 0 0 with predict_case := hook } (stubData [1, 2, 3])).outcome
        = ((stubLearner [1, 2, 4] 5 0 0).evaluate ⟨id, 0, 0⟩ (stubData [1, 2, 3])).outcome) :=
  evaluate_regression_inverted_bounds ⟨id, 0, 0⟩ (stubLearner [1, 2, 4] 5 0 0)
    (stubData [1, 2, 3]) ⟨List.replicate 3 (), 0⟩ rfl rfl (by decide) (by decide)

/-! ## The stack of `argsort` and the end of its loops -/

section StackLemmas

variable {α : Type} [LinearOrder α] [Ring α]

theorem length_le_stackWeight (st : List (Nat × Nat)) : st.length ≤ stackWeight st := by
  induction st with
  | nil => simp [stackWeight]
  | cons r rest ih =>
    simp only [stackWeight, List.map_cons, List.sum_cons, List.length_cons] at ih ⊢
    omega

theorem argsortPasses_inv (arr : List α) (asc : Int) (size : Nat) :
    ∀ n (s s1 : SortState), SortInv arr asc size s → argsortPasses arr asc n s = some s1 →
      SortInv arr asc size s1 := by
  intro n
  induction n with
  | zero =>
    intro s s1 hinv h
    simp only [argsortPasses, Option.some.injEq] at h
    exact h ▸ hinv
  | succ k ih =>
    intro s s1 hinv h
    obtain ⟨idx, st⟩ := s
    cases st with
    | nil => simp [argsortPasses] at h
    | cons r rest =>
      obtain ⟨from_, to_⟩ := r
      obtain ⟨s2, hs2, hinv2, _⟩ := argsortBody_inv arr asc size idx from_ to_ rest hinv
      simp only [argsortPasses, hs2] at h
      exact ih s2 s1 hinv2 h

end StackLemmas

/-- C16: for every key array and `size >= 2`, at every point of the main loop
of `argsort` the explicit stack holds at most `size` pending ranges, that is
at most `2 * size` ints, so every push `m_stack[st_head++]` writes inside the
buffer of `size * 2` ints; sorted, reverse-sorted and all-equal inputs are
covered as every input is. -/
theorem argsort_stack_within_buffer {α : Type} [LinearOrder α] [Ring α] (arr : List α)
    (size : Nat) (asc : Int) (hsize : 2 ≤ size) (n : Nat) (s : SortState)
    (hreach : argsortPasses arr asc n
      ⟨ordered_sequence size (none : Option (List Nat)) 0, [(0, size)]⟩ = some s) :
    s.st_head ≤ 2 * size ∧ s.m_stack.length ≤ size := by
  rw [ordered_sequence_nat] at hreach
  have hinv := argsortPasses_inv arr asc size n _ s
    (sortInv_init arr asc size (by omega)) hreach
  have hlen : s.m_stack.length ≤ size :=
    le_trans (length_le_stackWeight _) hinv.weight
  refine ⟨?_, hlen⟩
  simp only [SortState.st_head]
  omega

theorem argsort_stack_within_buffer_witness :
    SortState.st_head ⟨[0, 1, 2], [(2, 3), (1, 1), (0, 0)]⟩ ≤ 2 * 3 ∧
    (SortState.m_stack ⟨[0, 1, 2], [(2, 3), (1, 1), (0, 0)]⟩).length ≤ 3 :=
  argsort_stack_within_buffer [(1 : Int), 2, 3] 3 1 (by decide) 2
    ⟨[0, 1, 2], [(2, 3), (1, 1), (0, 0)]⟩ (by decide)

theorem findFrom_eq (p : Char → Bool) :
    ∀ (l : List Char) (i : Nat), findFrom p l i =
      if l.dropWhile (fun c => !p c) = [] then npos
      else i + (l.takeWhile (fun c => !p c)).length := by
  intro l
  induction l with
  | nil => intro i; simp [findFrom]
  | cons c cs ih =>
    intro i
    by_cases hc : p c = true
    · simp [findFrom, hc]
    · have hc2 : p c = false := by simpa using hc
      simp only [findFrom, hc2, Bool.false_eq_true, if_false, ih, Bool.not_false,
        List.dropWhile_cons_of_pos, List.takeWhile_cons_of_pos, List.length_cons]
      split_ifs <;> omega

theorem find_first_of_eq (pre rest d : List Char) :
    find_first_of (pre ++ rest) d pre.length =
      if rest.dropWhile (fun c => !decide (c ∈ d)) = [] then npos
      else pre.length + (rest.takeWhile (fun c => !decide (c ∈ d))).length := by
  unfold find_first_of
  by_cases h : (pre ++ rest).length ≤ pre.length
  · have hr : rest = [] := by
      simp only [List.length_append] at h
      exact List.eq_nil_of_length_eq_zero (by omega)
    subst hr
    simp
  · rw [if_neg h, List.drop_left, findFrom_eq]

theorem find_first_not_of_eq (pre rest d : List Char) :
    find_first_not_of (pre ++ rest) d pre.length =
      if rest.dropWhile (fun c => decide (c ∈ d)) = [] then npos
      else pre.length + (rest.takeWhile (fun c => decide (c ∈ d))).length := by
  unfold find_first_not_of
  by_cases h : (pre ++ rest).length ≤ pre.length
  · have hr : rest = [] := by
      simp only [List.length_append] at h
      exact List.eq_nil_of_length_eq_zero (by omega)
    subst hr
    simp
  · rw [if_neg h, List.drop_left, findFrom_eq]
    simp only [Bool.not_not]

theorem find_at_npos (str d : List Char) (hlen : str.length < npos) :
    find_first_not_of str d npos = npos ∧ find_first_of str d npos = npos := by
  simp only [find_first_not_of, find_first_of, if_pos (le_of_lt hlen), and_self]

theorem head?_dropWhile_false (p : Char → Bool) :
    ∀ l : List Char, ∀ c ∈ (l.dropWhile p).head?, p c = false := by
  intro l
  induction l with
  | nil => intro c hc; simp at hc
  | cons x xs ih =>
    intro c hc
    by_cases hx : p x = true
    · rw [List.dropWhile_cons_of_pos hx] at hc
      exact ih c hc
    · rw [List.dropWhile_cons_of_neg hx] at hc
      simp only [List.head?_cons, Option.mem_def, Option.some.injEq] at hc
      subst hc
      simpa using hx

theorem tokenizeLoop_done (str d : List Char) (fuel : Nat) (acc : List (List Char)) :
    tokenizeLoop str d fuel npos npos acc = TokenizeResult.returned acc := by
  cases fuel <;> simp [tokenizeLoop]

theorem Runs.prepend {d g x : List Char} {ts : List (List Char)} (hg : ∀ c ∈ g, c ∈ d)
    (h : Runs d x ts) : Runs d (g ++ x) ts := by
  cases h with
  | done g1 hg1 =>
    refine Runs.done _ ?_
    intro c hc
    rcases List.mem_append.1 hc with h1 | h1
    · exact hg c h1
    · exact hg1 c h1
  | token g1 t rest ts1 hg1 ht hfree hstop hrest =>
    rw [← List.append_assoc]
    refine Runs.token _ t rest ts1 ?_ ht hfree hstop hrest
    intro c hc
    rcases List.mem_append.1 hc with h1 | h1
    · exact hg c h1
    · exact hg1 c h1

theorem npos_eq : npos = 18446744073709551615 := by decide

theorem substr_at (pre rest : List Char) (count : Nat) :
    substr (pre ++ rest) pre.length count = some (rest.take count) := by
  unfold substr
  have h : ¬ (pre ++ rest).length < pre.length := by
    simp only [List.length_append]
    omega
  rw [if_neg h, List.drop_left]

theorem tokenizeLoop_spec (str d : List Char) (hlen : str.length < npos) :
    ∀ fuel (pre rest : List Char) (acc : List (List Char)), str = pre ++ rest → rest ≠ [] →
      (∀ c ∈ rest.head?, c ∉ d) → rest.length ≤ fuel →
      ∃ ts, tokenizeLoop str d fuel pre.length (find_first_of str d pre.length) acc
          = TokenizeResult.returned (acc ++ ts) ∧ Runs d rest ts := by
  intro fuel
  induction fuel with
  | zero =>
    intro pre rest acc _ hne _ hf
    have := List.length_pos.2 hne
    omega
  | succ k ih =>
    intro pre rest acc hstr hne hhead hf
    have hsplit : rest.takeWhile (fun c => !decide (c ∈ d))
        ++ rest.dropWhile (fun c => !decide (c ∈ d)) = rest :=
      List.takeWhile_append_dropWhile _ _
    generalize ht : rest.takeWhile (fun c => !decide (c ∈ d)) = t at hsplit
    generalize hr1 : rest.dropWhile (fun c => !decide (c ∈ d)) = r1 at hsplit
    have htfree : ∀ c ∈ t, c ∉ d := by
      intro c hc
      rw [← ht] at hc
      simpa using List.mem_takeWhile_imp hc
    have htne : t ≠ [] := by
      cases rest with
      | nil => exact absurd rfl hne
      | cons c cs =>
        have hc : c ∉ d := hhead c (by simp)
        rw [← ht, List.takeWhile_cons_of_pos (by simpa using hc)]
        simp
    have htpos : 0 < t.length := List.length_pos.2 htne
    have hstrlen : str.length = pre.length + rest.length := by rw [hstr]; simp
    have hrestlen : rest.length = t.length + r1.length := by rw [← hsplit]; simp
    have hnp := npos_eq
    have hcond : npos ≠ find_first_of str d pre.length ∨ npos ≠ pre.length :=
      Or.inr (by omega)
    have hpos : find_first_of str d pre.length
        = if r1 = [] then npos else pre.length + t.length := by
      rw [hstr, find_first_of_eq, ht, hr1]
    by_cases hr : r1 = []
    · subst hr
      rw [if_pos rfl] at hpos
      have hrest : rest = t := by simpa using hsplit.symm
      have htok : substr str pre.length ((npos + 2 ^ 64 - pre.length) % 2 ^ 64) = some rest := by
        rw [hstr, substr_at, List.take_of_length_le]
        omega
      refine ⟨[rest], ?_, ?_⟩
      · simp only [tokenizeLoop]
        rw [if_pos hcond]
        simp only [hpos, htok, (find_at_npos str d hlen).1, (find_at_npos str d hlen).2,
          tokenizeLoop_done]
      · have hrun := Runs.token (d := d) [] rest [] [] (by simp) hne (hrest ▸ htfree) (by simp)
          (Runs.done [] (by simp))
        simpa using hrun
    · rw [if_neg hr] at hpos
      have htok : substr str pre.length
          ((pre.length + t.length + 2 ^ 64 - pre.length) % 2 ^ 64) = some t := by
        rw [hstr, substr_at, ← hsplit]
        have hc : (pre.length + t.length + 2 ^ 64 - pre.length) % 2 ^ 64 = t.length := by
          omega
        rw [hc, List.take_left]
      have hstop : ∀ c ∈ r1.head?, c ∈ d := by
        intro c hc
        rw [← hr1] at hc
        simpa using head?_dropWhile_false _ rest c hc
      have hstr2 : str = (pre ++ t) ++ r1 := by
        rw [hstr, ← hsplit, List.append_assoc]
      have hsplit2 : r1.takeWhile (fun c => decide (c ∈ d))
          ++ r1.dropWhile (fun c => decide (c ∈ d)) = r1 :=
        List.takeWhile_append_dropWhile _ _
      generalize hg : r1.takeWhile (fun c => decide (c ∈ d)) = g at hsplit2
      generalize hr2 : r1.dropWhile (fun c => decide (c ∈ d)) = r2 at hsplit2
      have hgd : ∀ c ∈ g, c ∈ d := by
        intro c hc
        rw [← hg] at hc
        simpa using List.mem_takeWhile_imp hc
      have hlast : find_first_not_of str d (pre.length + t.length)
          = if r2 = [] then npos else pre.length + t.length + g.length := by
        have h1 : pre.length + t.length = (pre ++ t).length := by simp
        rw [h1, hstr2, find_first_not_of_eq, hg, hr2]
      by_cases hr2e : r2 = []
      · subst hr2e
        rw [if_pos rfl] at hlast
        have hr1g : r1 = g := by simpa using hsplit2.symm
        refine ⟨[t], ?_, ?_⟩
        · simp only [tokenizeLoop]
          rw [if_pos hcond]
          simp only [hpos, htok, hlast, (find_at_npos str d hlen).2, tokenizeLoop_done]
        · have hrun := Runs.token (d := d) [] t r1 [] (by simp) htne htfree hstop
            (Runs.done r1 (hr1g ▸ hgd))
          rw [List.nil_append, hsplit] at hrun
          exact hrun
      · rw [if_neg hr2e] at hlast
        have hstr3 : str = (pre ++ t ++ g) ++ r2 := by
          rw [hstr2, ← hsplit2]
          simp only [List.append_assoc]
        have hhead2 : ∀ c ∈ r2.head?, c ∉ d := by
          intro c hc
          rw [← hr2] at hc
          simpa using head?_dropWhile_false _ r1 c hc
        have hr1len : r1.length = g.length + r2.length := by rw [← hsplit2]; simp
        obtain ⟨ts, hrun, hruns⟩ := ih (pre ++ t ++ g) r2 (acc ++ [t]) hstr3 hr2e hhead2
          (by omega)
        have hlen3 : (pre ++ t ++ g).length = pre.length + t.length + g.length := by
          simp only [List.length_append]
        rw [hlen3] at hrun
        refine ⟨t :: ts, ?_, ?_⟩
        · simp only [tokenizeLoop]
          rw [if_pos hcond]
          simp only [hpos, htok, hlast, hrun]
          simp
        · have hrun2 := Runs.token (d := d) [] t r1 ts (by simp) htne htfree hstop
            (hsplit2 ▸ Runs.prepend hgd hruns)
          rw [List.nil_append, hsplit] at hrun2
          exact hrun2

theorem tokenize_runs (str d : List Char) (hlen : str.length < npos) :
    ∃ ts, tokenize str d = TokenizeResult.returned ts ∧ Runs d str ts := by
  have hsplit : str.takeWhile (fun c => decide (c ∈ d))
      ++ str.dropWhile (fun c => decide (c ∈ d)) = str :=
    List.takeWhile_append_dropWhile _ _
  generalize hg : str.takeWhile (fun c => decide (c ∈ d)) = g at hsplit
  generalize hr : str.dropWhile (fun c => decide (c ∈ d)) = rest at hsplit
  have hgd : ∀ c ∈ g, c ∈ d := by
    intro c hc
    rw [← hg] at hc
    simpa using List.mem_takeWhile_imp hc
  have hfirst : find_first_not_of str d 0 = if rest = [] then npos else g.length := by
    have h := find_first_not_of_eq [] str d
    simp only [List.nil_append, List.length_nil, Nat.zero_add, hg, hr] at h
    exact h
  by_cases hre : rest = []
  · subst hre
    rw [if_pos rfl] at hfirst
    refine ⟨[], ?_, ?_⟩
    · simp only [tokenize, hfirst, (find_at_npos str d hlen).2, tokenizeLoop_done]
    · have hs : str = g := by simpa using hsplit.symm
      exact Runs.done str (hs ▸ hgd)
  · rw [if_neg hre] at hfirst
    have hhead : ∀ c ∈ rest.head?, c ∉ d := by
      intro c hc
      rw [← hr] at hc
      simpa using head?_dropWhile_false _ str c hc
    have hlen2 : str.length = g.length + rest.length := by rw [← hsplit]; simp
    obtain ⟨ts, hrun, hruns⟩ :=
      tokenizeLoop_spec str d hlen str.length g rest [] hsplit.symm hre hhead (by omega)
    refine ⟨ts, ?_, hsplit ▸ Runs.prepend hgd hruns⟩
    simp only [tokenize, hfirst]
    simpa using hrun

theorem Runs.tokens_clean {d s : List Char} {ts : List (List Char)} (h : Runs d s ts) :
    ∀ t ∈ ts, t ≠ [] ∧ ∀ c ∈ t, c ∉ d := by
  induction h with
  | done g hg => intro t ht; simp at ht
  | token g t rest ts hg ht hfree hstop hrest ih =>
    intro t1 ht1
    rcases List.mem_cons.1 ht1 with heq | hmem
    · subst heq
      exact ⟨ht, hfree⟩
    · exact ih t1 hmem

theorem Runs.flatten_eq_filter {d s : List Char} {ts : List (List Char)} (h : Runs d s ts) :
    ts.flatten = s.filter (fun c => !decide (c ∈ d)) := by
  induction h with
  | done g hg =>
    symm
    simp only [List.flatten_nil, List.filter_eq_nil_iff]
    intro c hc
    simpa using hg c hc
  | token g t rest ts hg ht hfree hstop hrest ih =>
    have h1 : g.filter (fun c => !decide (c ∈ d)) = [] := by
      simp only [List.filter_eq_nil_iff]
      intro c hc
      simpa using hg c hc
    have h2 : t.filter (fun c => !decide (c ∈ d)) = t := by
      rw [List.filter_eq_self]
      intro c hc
      simpa using hfree c hc
    simp only [List.flatten_cons, List.filter_append, h1, h2, ih, List.nil_append]

theorem Runs.nil_of_all_delimiters {d s : List Char} {ts : List (List Char)}
    (h : Runs d s ts) (hall : ∀ c ∈ s, c ∈ d) : ts = [] := by
  cases h with
  | done g hg => rfl
  | token g t rest ts1 hg ht hfree hstop hrest =>
    exfalso
    obtain ⟨c, hc⟩ := List.exists_mem_of_ne_nil t ht
    exact hfree c hc (hall c (by simp [hc]))

theorem takeWhile_dropWhile_append_stop (p : Char → Bool) :
    ∀ a b : List Char, (∀ c ∈ a, p c = true) → (∀ c ∈ b.head?, p c = false) →
      (a ++ b).takeWhile p = a ∧ (a ++ b).dropWhile p = b := by
  intro a
  induction a with
  | nil =>
    intro b _ hb
    cases b with
    | nil => simp
    | cons c cs =>
      have hc : p c = false := hb c (by simp)
      simp [hc]
  | cons x xs ih =>
    intro b ha hb
    have hx : p x = true := ha x (by simp)
    obtain ⟨h1, h2⟩ := ih b (fun c hc => ha c (by simp [hc])) hb
    simp [hx, h1, h2]

theorem Runs.shape {d s : List Char} {ts : List (List Char)} (h : Runs d s ts) :
    (ts = [] ∧ ∀ c ∈ s, c ∈ d) ∨
    ∃ g t rest ts1, s = g ++ (t ++ rest) ∧ ts = t :: ts1 ∧ (∀ c ∈ g, c ∈ d) ∧ t ≠ [] ∧
      (∀ c ∈ t, c ∉ d) ∧ (∀ c ∈ rest.head?, c ∈ d) ∧ Runs d rest ts1 := by
  cases h with
  | done g hg => exact Or.inl ⟨rfl, hg⟩
  | token g t rest ts1 hg ht hfree hstop hrest =>
    exact Or.inr ⟨g, t, rest, ts1, rfl, rfl, hg, ht, hfree, hstop, hrest⟩

theorem Runs.split_eq {d g t rest : List Char} (hg : ∀ c ∈ g, c ∈ d) (ht : t ≠ [])
    (hfree : ∀ c ∈ t, c ∉ d) (hstop : ∀ c ∈ rest.head?, c ∈ d) :
    t = ((g ++ (t ++ rest)).dropWhile (fun c => decide (c ∈ d))).takeWhile
          (fun c => !decide (c ∈ d)) ∧
    rest = ((g ++ (t ++ rest)).dropWhile (fun c => decide (c ∈ d))).dropWhile
          (fun c => !decide (c ∈ d)) := by
  have h1 := takeWhile_dropWhile_append_stop (fun c => decide (c ∈ d)) g (t ++ rest)
    (fun c hc => by simpa using hg c hc)
    (by
      intro c hc
      cases t with
      | nil => exact absurd rfl ht
      | cons x xs =>
        simp only [List.cons_append, List.head?_cons, Option.mem_def, Option.some.injEq] at hc
        subst hc
        simpa using hfree x (by simp))
  have h2 := takeWhile_dropWhile_append_stop (fun c => !decide (c ∈ d)) t rest
    (fun c hc => by simpa using hfree c hc)
    (fun c hc => by simpa using hstop c hc)
  rw [h1.2, h2.1, h2.2]
  exact ⟨rfl, rfl⟩

theorem Runs.unique {d s : List Char} {ts : List (List Char)} (h : Runs d s ts) :
    ∀ ts2, Runs d s ts2 → ts2 = ts := by
  induction h with
  | done g hg =>
    intro ts2 h2
    exact Runs.nil_of_all_delimiters h2 hg
  | token g t rest ts hg ht hfree hstop hrest ih =>
    intro ts2 h2
    rcases Runs.shape h2 with ⟨_, hall⟩ | ⟨g2, t2, rest2, ts3, hs, hts, hg2, ht2, hfree2, hstop2, hrest2⟩
    · exfalso
      obtain ⟨c, hc⟩ := List.exists_mem_of_ne_nil t ht
      exact hfree c hc (hall c (by simp [hc]))
    · obtain ⟨e1, e2⟩ := Runs.split_eq hg ht hfree hstop
      obtain ⟨f1, f2⟩ := Runs.split_eq hg2 ht2 hfree2 hstop2
      rw [← hs] at f1 f2
      have ht12 : t2 = t := f1.trans e1.symm
      have hr12 : rest2 = rest := f2.trans e2.symm
      subst ht12
      subst hr12
      rw [hts, ih ts3 hrest2]

/-- C19: for every string `s` (shorter than `npos`, as every `std::string` is)
and every delimiter string `d`, `tokenize(s, d)` returns, from left to right,
exactly the maximal runs of characters of `s` that are not in `d`: the returned
list is the only one in the relation `Runs`, no token is empty, no token holds
a character of `d`, the tokens together are the characters of `s` outside `d`
in their order, an empty or all-delimiter `s` gives no token, and `substr` is
never called with a start past the end of `s`, so nothing is thrown. -/
theorem tokenize_returns_maximal_runs (s d : List Char) (hlen : s.length < npos) :
    ∃ ts, tokenize s d = TokenizeResult.returned ts ∧ Runs d s ts ∧
      (∀ ts2, Runs d s ts2 → ts2 = ts) ∧
      (∀ t ∈ ts, t ≠ [] ∧ ∀ c ∈ t, c ∉ d) ∧
      ts.flatten = s.filter (fun c => !decide (c ∈ d)) ∧
      (s = [] → ts = []) ∧
      ((∀ c ∈ s, c ∈ d) → ts = []) ∧
      tokenize s d ≠ TokenizeResult.out_of_range := by
  obtain ⟨ts, hrun, hruns⟩ := tokenize_runs s d hlen
  refine ⟨ts, hrun, hruns, Runs.unique hruns, Runs.tokens_clean hruns,
    Runs.flatten_eq_filter hruns, ?_, Runs.nil_of_all_delimiters hruns, ?_⟩
  · intro hs
    apply Runs.nil_of_all_delimiters hruns
    intro c hc
    rw [hs] at hc
    simp at hc
  · rw [hrun]
    exact fun h => TokenizeResult.noConfusion h

theorem tokenize_returns_maximal_runs_witness :
    ∃ ts, tokenize ",,ab, c;".toList ",;".toList = TokenizeResult.returned ts ∧
      Runs ",;".toList ",,ab, c;".toList ts ∧
      (∀ ts2, Runs ",;".toList ",,ab, c;".toList ts2 → ts2 = ts) ∧
      (∀ t ∈ ts, t ≠ [] ∧ ∀ c ∈ t, c ∉ ",;".toList) ∧
      ts.flatten = ",,ab, c;".toList.filter (fun c => !decide (c ∈ ",;".toList)) ∧
      (",,ab, c;".toList = [] → ts = []) ∧
      ((∀ c ∈ ",,ab, c;".toList, c ∈ ",;".toList) → ts = []) ∧
      tokenize ",,ab, c;".toList ",;".toList ≠ TokenizeResult.out_of_range :=
  tokenize_returns_maximal_runs ",,ab, c;".toList ",;".toList (by decide)

end LibFM
